import Mathlib

/-!
Verification of the owned-coin ledger (`src/coins.rs` of rust-wallet).

The Rust `HashMap`s are embedded as association lists with replace-on-insert
semantics (`minsert` erases the old binding first, so key-uniqueness is
maintained and insertion of an identical binding leaves the list equal, the
way `HashMap` equality behaves).  Hashes, scripts and transaction ids are
abstracted as natural numbers; `u32`/`u64` arithmetic that can overflow is
taken modulo 2^32 / 2^64 at the operation that overflows (release-mode
wrapping).  The key-derivation collaborator (`account.rs`) and the SPV proof
type (`proved.rs`) are not part of `src/`; they are modelled from the spec's
collaborator contracts.
-/

/-- Transaction id, an abstracted `sha256d::Hash`. -/
abbrev Txid := Nat

/-- Block hash, an abstracted `sha256d::Hash`. -/
abbrev BlockHash := Nat

/-- Locking script, an abstracted `bitcoin::Script`. -/
abbrev Script := Nat

/-- Reference to a transaction output: `bitcoin::OutPoint` (txid, vout). -/
structure OutPoint where
  txid : Txid
  vout : Nat
deriving DecidableEq

/-- Key-derivation metadata (`account::KeyDerivation`): account id, sub-account
id, key index, optional tweak, optional relative-timelock (CSV, a `u16`). -/
structure KeyDerivation where
  account : Nat
  sub : Nat
  kix : Nat
  tweak : Option Nat
  csv : Option Nat
deriving DecidableEq

/-- Transaction output: `bitcoin::TxOut` (value is a `u64` amount). -/
structure TxOut where
  value : Nat
  script_pubkey : Script
deriving DecidableEq

/-- Transaction input; only the `previous_output` field is used by `coins.rs`. -/
structure TxIn where
  previous_output : OutPoint
deriving DecidableEq

/-- Transaction: its id (`txid()` is abstracted as a field) plus inputs and
outputs. -/
structure Transaction where
  txid : Txid
  input : List TxIn
  output : List TxOut
deriving DecidableEq, Inhabited

/-- Block: its hash and its transactions (`txdata`). -/
structure Block where
  hash : BlockHash
  txdata : List Transaction
deriving DecidableEq

/-- Coin (`Coin` in `coins.rs`): a spendable output plus the derivation that
allows to spend it. -/
structure Coin where
  output : TxOut
  derivation : KeyDerivation
deriving DecidableEq

/-- Modelled from the spec: the inclusion-proof collaborator (`proved.rs`, not
under `src/`).  The spec's contract is `construct proof from block + index`,
`proof.transaction()`, `proof.block_hash()`; the internal Merkle-path format is
out of scope, so the proof is just the pair of observable values. -/
structure ProvedTransaction where
  transaction : Transaction
  block_hash : BlockHash
deriving DecidableEq

/-- Modelled from the spec: `ProvedTransaction::new(block, txnr)` binds
`block.txdata[txnr]` to the block's hash. -/
def ProvedTransaction.new (block : Block) (txnr : Nat) : ProvedTransaction :=
  { transaction := block.txdata.getD txnr default, block_hash := block.hash }

/-- Modelled from the spec: the key-derivation collaborator (`account.rs`, not
under `src/`).  It supplies the watched-script snapshot
(`master_account.get_scripts()` collected into a map) and the lookahead
extension `get_mut((account, sub)).do_look_ahead(Some(kix))`, which returns
newly generated (key index, script) pairs.  The spec treats it as a black box
satisfying this contract, so both are modelled as pure data of the call. -/
structure MasterAccount where
  scripts : List (Script × KeyDerivation)
  lookAhead : Nat → Nat → Nat → List (Nat × Script)

/-- Association-list lookup: first binding of the key, the `HashMap::get`
of the embedding. -/
def mlookup {K V : Type} [DecidableEq K] (k : K) : List (K × V) → Option V
  | [] => none
  | kv :: rest => if kv.1 = k then some kv.2 else mlookup k rest

/-- Association-list removal of every binding of a key (`HashMap::remove`). -/
def merase {K V : Type} [DecidableEq K] (k : K) (m : List (K × V)) : List (K × V) :=
  m.filter (fun kv => decide (kv.1 ≠ k))

/-- Association-list insert-or-replace (`HashMap::insert`). -/
def minsert {K V : Type} [DecidableEq K] (k : K) (v : V) (m : List (K × V)) : List (K × V) :=
  (k, v) :: merase k m

/-- Enumeration of a list with indices starting at `n` (Rust's
`iter().enumerate()` with an offset). -/
def enumFrom {α : Type} : Nat → List α → List (Nat × α)
  | _, [] => []
  | n, a :: l => (n, a) :: enumFrom (n + 1) l

/-- The coin ledger (`Coins` in `coins.rs`): unconfirmed coins, confirmed
coins, and SPV proofs of the transactions confirming coins. -/
structure Coins where
  unconfirmed : List (OutPoint × Coin)
  confirmed : List (OutPoint × Coin)
  proofs : List (Txid × ProvedTransaction)
deriving DecidableEq

/-- Empty ledger, `Coins::new` (coins.rs:49). -/
def Coins.new : Coins := { unconfirmed := [], confirmed := [], proofs := [] }

/-- Restore entry point `Coins::add_confirmed` (coins.rs:54). -/
def Coins.add_confirmed (s : Coins) (point : OutPoint) (coin : Coin)
    (proof : ProvedTransaction) : Coins :=
  { s with confirmed := minsert point coin s.confirmed,
           proofs := minsert proof.transaction.txid proof s.proofs }

/-- The `Coins::remove_confirmed` operation (coins.rs:59-65): remove the coin;
if afterwards no confirmed output shares its transaction id, also remove the
proof.  Returns the new state and the "was present" flag. -/
def Coins.remove_confirmed (s : Coins) (point : OutPoint) : Coins × Bool :=
  let modified := (mlookup point s.confirmed).isSome
  let confirmed' := merase point s.confirmed
  if modified ∧ (confirmed'.any (fun pc => decide (pc.1.txid = point.txid))) = false then
    ({ s with confirmed := confirmed', proofs := merase point.txid s.proofs }, modified)
  else
    ({ s with confirmed := confirmed' }, modified)

/-- Input-spend scan shared by `process` and `process_unconfirmed_transaction`
(coins.rs:71-73 and coins.rs:137-139): `modified |= remove_confirmed(prev)` for
each input. -/
def removeInputs (inputs : List TxIn) (s : Coins) (m : Bool) : Coins × Bool :=
  match inputs with
  | [] => (s, m)
  | i :: rest =>
    let r := s.remove_confirmed i.previous_output
    removeInputs rest r.1 (m || r.2)

/-- Lookahead extension on a script hit (coins.rs:77-79 and coins.rs:144-146):
the collaborator's new (kix, script) pairs, each mapped to the derivation that
copies `account`, `sub`, `tweak`, `csv` of the hit and carries the new `kix`. -/
def lookaheadPairs (la : Nat → Nat → Nat → List (Nat × Script))
    (d : KeyDerivation) : List (Script × KeyDerivation) :=
  (la d.account d.sub d.kix).map (fun ks => (ks.2, { d with kix := ks.1 }))

/-- Ledger change on a script hit of the unconfirmed scan (coins.rs:80-81):
record the coin as unconfirmed at (txid, vout). -/
def unconfMatchState (txid : Txid) (vout : Nat) (output : TxOut) (d : KeyDerivation)
    (s : Coins) : Coins :=
  { s with unconfirmed := minsert ⟨txid, vout⟩ ⟨output, d⟩ s.unconfirmed }

/-- Output scan of `process_unconfirmed_transaction` (coins.rs:74-87): for each
output in index order, on a script match insert the coin as unconfirmed at
(txid, vout), merge the lookahead pairs into the local scripts map, and set the
modified flag. -/
def scanOutputsUnconf (la : Nat → Nat → Nat → List (Nat × Script)) (txid : Txid) :
    List (Nat × TxOut) → List (Script × KeyDerivation) → Coins → Bool →
    Coins × List (Script × KeyDerivation) × Bool
  | [], scripts, s, m => (s, scripts, m)
  | (vout, output) :: rest, scripts, s, m =>
    match mlookup output.script_pubkey scripts with
    | some d =>
      let scripts' := (lookaheadPairs la d).foldl
        (fun sc sd => minsert sd.1 sd.2 sc) scripts
      scanOutputsUnconf la txid rest scripts' (unconfMatchState txid vout output d s) true
    | none => scanOutputsUnconf la txid rest scripts s m

/-- The `Coins::process_unconfirmed_transaction` operation (coins.rs:68-89).
Returns the new state and the modified flag.  The collaborator snapshot is the
`MasterAccount`'s scripts map; the local working copy is discarded at the end
of the call. -/
def Coins.process_unconfirmed_transaction (s : Coins) (ma : MasterAccount)
    (tx : Transaction) : Coins × Bool :=
  let r1 := removeInputs tx.input s false
  let r2 := scanOutputsUnconf ma.lookAhead tx.txid (enumFrom 0 tx.output) ma.scripts r1.1 r1.2
  (r2.1, r2.2.2)

/-- Ledger change on a script hit of the block scan (coins.rs:147-150): remove
any stale unconfirmed entry at (txid, vout), install the coin into confirmed,
and install the block's proof for the transaction unless one already exists
(`entry(..).or_insert(..)`). -/
def blockMatchState (block : Block) (txnr : Nat) (txid : Txid) (vout : Nat)
    (output : TxOut) (d : KeyDerivation) (s : Coins) : Coins :=
  { unconfirmed := merase ⟨txid, vout⟩ s.unconfirmed,
    confirmed := minsert ⟨txid, vout⟩ ⟨output, d⟩ s.confirmed,
    proofs := if (mlookup txid s.proofs).isSome then s.proofs
              else minsert txid (ProvedTransaction.new block txnr) s.proofs }

/-- Output scan of `process` (coins.rs:141-156), one output at a time. -/
def scanOutputsBlock (block : Block) (txnr : Nat)
    (la : Nat → Nat → Nat → List (Nat × Script)) (txid : Txid) :
    List (Nat × TxOut) → List (Script × KeyDerivation) → Coins → Bool →
    Coins × List (Script × KeyDerivation) × Bool
  | [], scripts, s, m => (s, scripts, m)
  | (vout, output) :: rest, scripts, s, m =>
    match mlookup output.script_pubkey scripts with
    | some d =>
      let scripts' := (lookaheadPairs la d).foldl
        (fun sc sd => minsert sd.1 sd.2 sc) scripts
      scanOutputsBlock block txnr la txid rest scripts'
        (blockMatchState block txnr txid vout output d s) true
    | none => scanOutputsBlock block txnr la txid rest scripts s m

/-- Transaction loop of `process` (coins.rs:135-157): the first transaction
(coinbase, `txnr = 0`) is exempt from input-spend checking; the scripts map
threads across transactions of the block. -/
def processTxs (block : Block) (la : Nat → Nat → Nat → List (Nat × Script)) :
    Nat → List Transaction → List (Script × KeyDerivation) → Coins → Bool →
    Coins × Bool
  | _, [], _, s, m => (s, m)
  | txnr, tx :: rest, scripts, s, m =>
    let r1 := if 0 < txnr then removeInputs tx.input s m else (s, m)
    let r2 := scanOutputsBlock block txnr la tx.txid (enumFrom 0 tx.output) scripts r1.1 r1.2
    processTxs block la (txnr + 1) rest r2.2.1 r2.1 r2.2.2

/-- The `Coins::process` operation (coins.rs:131-159): scan a whole block. -/
def Coins.process (s : Coins) (ma : MasterAccount) (block : Block) : Coins × Bool :=
  processTxs block ma.lookAhead 0 block.txdata ma.scripts s false

/-- Demotion of one lost coin inside `unwind_tip` (coins.rs:120-124): drop the
proof, move the coin from confirmed to unconfirmed.  In the source the
confirmed lookup is `remove(&point).unwrap()`; the `none` branch corresponds to
that panic and is unreachable on states whose proofs are consistent with the
confirmed map (which every state reachable from the empty ledger is). -/
def unwindStep (st : Coins) (point : OutPoint) : Coins :=
  let st1 := { st with proofs := merase point.txid st.proofs }
  match mlookup point st1.confirmed with
  | some coin =>
    { st1 with confirmed := merase point st1.confirmed,
               unconfirmed := minsert point coin st1.unconfirmed }
  | none => st1

/-- Collection step of `unwind_tip` (coins.rs:114-118): for every proof whose
confirming block hash matches, every confirmed output reference sharing that
proof's transaction id. -/
def lostCoins (s : Coins) (block_hash : BlockHash) : List OutPoint :=
  (s.proofs.filterMap (fun kp =>
    if kp.2.block_hash = block_hash then some kp.2.transaction.txid else none)).flatMap
    (fun txid => (s.confirmed.filter (fun pc => decide (pc.1.txid = txid))).map (·.1))

/-- The `Coins::unwind_tip` operation (coins.rs:112-125): collect the lost
coins, then demote each of them. -/
def Coins.unwind_tip (s : Coins) (block_hash : BlockHash) : Coins :=
  (lostCoins s block_hash).foldl unwindStep s

/-- Confirmed balance query (coins.rs:103). -/
def Coins.confirmed_balance (s : Coins) : Nat :=
  (s.confirmed.map (fun pc => pc.2.output.value)).sum

/-- Unconfirmed balance query (coins.rs:107). -/
def Coins.unconfirmed_balance (s : Coins) : Nat :=
  (s.unconfirmed.map (fun pc => pc.2.output.value)).sum

/-- Selected triple returned by coin selection: output reference, coin,
confirming height. -/
abbrev Selected := OutPoint × Coin × Nat

/-- Value of a selected coin. -/
def valueOf (it : Selected) : Nat := it.2.1.output.value

/-- Step 1 of `get_confirmed_coins` (coins.rs:168-178): resolve each confirmed
coin's proof and confirming height and keep those whose relative timelock, if
any, does not satisfy `h + csv < height` (the `u32` addition wraps).  A missing
proof or an unresolvable block hash is the fatal `expect` panic, embedded as
`none`. -/
def filterConfirmed (proofs : List (Txid × ProvedTransaction))
    (block_height : BlockHash → Option Nat) (height : Nat) :
    List (OutPoint × Coin) → Option (List Selected)
  | [] => some []
  | (p, c) :: rest =>
    match mlookup p.txid proofs with
    | none => none
    | some proof =>
      match block_height proof.block_hash with
      | none => none
      | some h =>
        match filterConfirmed proofs block_height height rest with
        | none => none
        | some out =>
          match c.derivation.csv with
          | some csv =>
            if (h + csv) % 4294967296 < height then some out else some ((p, c, h) :: out)
          | none => some ((p, c, h) :: out)

/-- Greedy accumulation of `get_confirmed_coins` (coins.rs:180-187): push coins
in order, summing values in `u64` wrapping arithmetic, and stop as soon as the
running sum reaches the requested minimum. -/
def selectAccum (minimum : Nat) : List Selected → Nat → List Selected × Nat
  | [], sum => ([], sum)
  | i :: rest, sum =>
    let sum' := (sum + valueOf i) % 18446744073709551616
    if minimum ≤ sum' then ([i], sum')
    else
      let r := selectAccum minimum rest sum'
      (i :: r.1, r.2)

/-- One search of the change-minimization pass (coins.rs:191): find the first
already-selected coin whose value is at most the overshoot and remove it,
reporting its value. -/
def removeFirstLE (change : Nat) : List Selected → Option (Nat × List Selected)
  | [] => none
  | i :: rest =>
    if valueOf i ≤ change then some (valueOf i, rest)
    else (removeFirstLE change rest).map (fun vr => (vr.1, i :: vr.2))

/-- Change-minimization loop of `get_confirmed_coins` (coins.rs:188-196):
repeatedly drop a selected coin whose value is at most the remaining overshoot.
Each iteration removes one coin, so `fuel` set to the list length makes the
recursion run to the same fixpoint as the Rust `while let` loop. -/
def dropFuel : Nat → Nat → List Selected → List Selected
  | 0, _, l => l
  | fuel + 1, change, l =>
    match removeFirstLE change l with
    | none => l
    | some (v, l') => dropFuel fuel (change - v) l'

/-- Steps 2-4 of `get_confirmed_coins` (coins.rs:179-196): sort candidates
ascending by value, accumulate until the minimum is reached, then shed
overshooting coins.  The final `shuffle` (coins.rs:197) applies a random
permutation of the result order and is outside the deterministic embedding;
every property stated below is invariant under permutation of the result. -/
def selectionPipeline (minimum : Nat) (cands : List Selected) : List Selected :=
  let sorted := List.insertionSort (fun a b => valueOf a ≤ valueOf b) cands
  let acc := selectAccum minimum sorted 0
  if minimum < acc.2 then dropFuel acc.1.length (acc.2 - minimum) acc.1 else acc.1

/-- The `Coins::get_confirmed_coins` query (coins.rs:163-199).  `none` embeds
the fatal `expect` panic of the resolution step; `some l` is a normal return
whose list is the selection (up to the final random shuffle of its order). -/
def Coins.get_confirmed_coins (s : Coins) (minimum : Nat) (height : Nat)
    (block_height : BlockHash → Option Nat) : Option (List Selected) :=
  (filterConfirmed s.proofs block_height height s.confirmed).map
    (fun cands => selectionPipeline minimum cands)

/-- One ledger call of the mutating interface, for stating trace invariants:
`process`, `process_unconfirmed_transaction`, `remove_confirmed` or
`unwind_tip`, each with the arguments of the call. -/
inductive LOp where
  | proc (ma : MasterAccount) (block : Block)
  | procUnconf (ma : MasterAccount) (tx : Transaction)
  | removeConf (p : OutPoint)
  | unwind (h : BlockHash)

/-- Application of one ledger call to a state. -/
def Coins.step (s : Coins) : LOp → Coins
  | .proc ma b => (s.process ma b).1
  | .procUnconf ma tx => (s.process_unconfirmed_transaction ma tx).1
  | .removeConf p => (s.remove_confirmed p).1
  | .unwind h => s.unwind_tip h

/-- Application of a finite sequence of ledger calls. -/
def Coins.run (s : Coins) (ops : List LOp) : Coins := ops.foldl Coins.step s

/-- Invariant I1: an output reference appears in at most one of
{confirmed, unconfirmed}. -/
def I1 (s : Coins) : Prop :=
  ∀ p : OutPoint, (mlookup p s.confirmed).isSome → mlookup p s.unconfirmed = none

/-- Invariants I2 and I3 combined: a transaction id is a key of the proofs map
iff at least one output reference with that transaction id is a key of the
confirmed map. -/
def I23 (s : Coins) : Prop :=
  ∀ t : Txid, (mlookup t s.proofs).isSome ↔
    ∃ p : OutPoint, p.txid = t ∧ (mlookup p s.confirmed).isSome

/-- Auxiliary consistency invariant: every proof is stored under the
transaction id of the transaction it proves (`proofs.insert(tx.txid(), ..)` at
coins.rs:56 and coins.rs:150 establishes it). -/
def ProofsConsistent (s : Coins) : Prop :=
  ∀ kp ∈ s.proofs, (kp : Txid × ProvedTransaction).2.transaction.txid = kp.1

/-! ### Association-list lemmas -/

theorem mlookup_cons {K V : Type} [DecidableEq K] (q : K) (kv : K × V) (m : List (K × V)) :
    mlookup q (kv :: m) = if kv.1 = q then some kv.2 else mlookup q m := rfl

theorem merase_cons {K V : Type} [DecidableEq K] (k : K) (kv : K × V) (m : List (K × V)) :
    merase k (kv :: m) = if kv.1 = k then merase k m else kv :: merase k m := by
  by_cases h : kv.1 = k <;> simp [merase, List.filter_cons, h]

theorem mlookup_merase {K V : Type} [DecidableEq K] (q k : K) (m : List (K × V)) :
    mlookup q (merase k m) = if q = k then none else mlookup q m := by
  induction m with
  | nil => simp [merase, mlookup]
  | cons kv rest ih =>
    rw [merase_cons]
    by_cases hk : kv.1 = k
    · rw [if_pos hk]
      rw [ih, mlookup_cons]
      by_cases hq : q = k
      · simp [hq]
      · have hne : ¬ kv.1 = q := fun e => hq ((e.symm.trans hk))
        simp [hq, hne]
    · rw [if_neg hk]
      rw [mlookup_cons, mlookup_cons, ih]
      by_cases hq : q = k
      · have hne : ¬ kv.1 = q := fun e => hk (e.trans hq)
        simp [hq, hne, hk]
      · simp [hq]

theorem mlookup_minsert {K V : Type} [DecidableEq K] (q k : K) (v : V) (m : List (K × V)) :
    mlookup q (minsert k v m) = if q = k then some v else mlookup q m := by
  unfold minsert
  rw [mlookup_cons, mlookup_merase]
  by_cases hq : q = k
  · simp [hq]
  · have hne : ¬ k = q := fun e => hq e.symm
    simp [hq, hne]

theorem merase_of_mlookup_none {K V : Type} [DecidableEq K] (k : K) (m : List (K × V))
    (h : mlookup k m = none) : merase k m = m := by
  induction m with
  | nil => rfl
  | cons kv rest ih =>
    rw [mlookup_cons] at h
    by_cases hk : kv.1 = k
    · simp [hk] at h
    · rw [merase_cons, if_neg hk, ih (by simpa [hk] using h)]

theorem mem_of_mlookup_some {K V : Type} [DecidableEq K] {k : K} {v : V} {m : List (K × V)}
    (h : mlookup k m = some v) : (k, v) ∈ m := by
  induction m with
  | nil => simp [mlookup] at h
  | cons kv rest ih =>
    rw [mlookup_cons] at h
    by_cases hk : kv.1 = k
    · rw [if_pos hk] at h
      rcases kv with ⟨k1, v1⟩
      obtain rfl : k1 = k := hk
      obtain rfl : v1 = v := Option.some.inj h
      exact List.mem_cons_self _ _
    · exact List.mem_cons_of_mem _ (ih (by simpa [hk] using h))

theorem mlookup_isSome_of_mem {K V : Type} [DecidableEq K] {k : K} {v : V} {m : List (K × V)}
    (h : (k, v) ∈ m) : (mlookup k m).isSome := by
  induction m with
  | nil => simp at h
  | cons kv rest ih =>
    rcases List.mem_cons.mp h with h1 | h1
    · simp [mlookup_cons, ← h1]
    · rw [mlookup_cons]
      by_cases hk : kv.1 = k
      · simp [hk]
      · simpa [hk] using ih h1

theorem mem_merase {K V : Type} [DecidableEq K] {k : K} {kv : K × V} {m : List (K × V)}
    (h : kv ∈ merase k m) : kv ∈ m := (List.mem_filter.mp h).1

/-! ### Lemmas about `remove_confirmed` -/

theorem rc_modified (s : Coins) (p : OutPoint) :
    (s.remove_confirmed p).2 = (mlookup p s.confirmed).isSome := by
  unfold Coins.remove_confirmed
  dsimp only
  split <;> rfl

theorem rc_confirmed (s : Coins) (p : OutPoint) :
    (s.remove_confirmed p).1.confirmed = merase p s.confirmed := by
  unfold Coins.remove_confirmed
  dsimp only
  split <;> rfl

theorem rc_unconfirmed (s : Coins) (p : OutPoint) :
    (s.remove_confirmed p).1.unconfirmed = s.unconfirmed := by
  unfold Coins.remove_confirmed
  dsimp only
  split <;> rfl

theorem rc_proofs_cases (s : Coins) (p : OutPoint) :
    (s.remove_confirmed p).1.proofs = merase p.txid s.proofs ∨
    (s.remove_confirmed p).1.proofs = s.proofs := by
  unfold Coins.remove_confirmed
  dsimp only
  split
  · left; rfl
  · right; rfl

theorem rc_proofs_eq_of_removed_none_remaining (s : Coins) (p : OutPoint)
    (hsome : (mlookup p s.confirmed).isSome)
    (hrem : ((merase p s.confirmed).any (fun pc => decide (pc.1.txid = p.txid))) = false) :
    (s.remove_confirmed p).1.proofs = merase p.txid s.proofs := by
  unfold Coins.remove_confirmed
  dsimp only
  rw [if_pos ⟨hsome, hrem⟩]

theorem rc_proofs_eq_of_not_cond (s : Coins) (p : OutPoint)
    (h : ¬((mlookup p s.confirmed).isSome ∧
      ((merase p s.confirmed).any (fun pc => decide (pc.1.txid = p.txid))) = false)) :
    (s.remove_confirmed p).1.proofs = s.proofs := by
  unfold Coins.remove_confirmed
  dsimp only
  rw [if_neg h]

/-! ### Invariant preservation by `remove_confirmed` -/

theorem any_txid_true {m : List (OutPoint × Coin)} {t : Txid} :
    (m.any (fun pc => decide (pc.1.txid = t))) = true ↔ ∃ pc ∈ m, pc.1.txid = t := by
  simp [List.any_eq_true]

theorem rc_pres_I1 (s : Coins) (p : OutPoint) (h : I1 s) : I1 (s.remove_confirmed p).1 := by
  intro q hq
  rw [rc_unconfirmed]
  rw [rc_confirmed, mlookup_merase] at hq
  by_cases hqp : q = p
  · simp [hqp] at hq
  · exact h q (by simpa [hqp] using hq)

theorem rc_pres_I23 (s : Coins) (p : OutPoint) (h : I23 s) : I23 (s.remove_confirmed p).1 := by
  intro t
  by_cases hcond : (mlookup p s.confirmed).isSome ∧
      ((merase p s.confirmed).any (fun pc => decide (pc.1.txid = p.txid))) = false
  · rw [rc_proofs_eq_of_removed_none_remaining s p hcond.1 hcond.2]
    rw [mlookup_merase]
    by_cases ht : t = p.txid
    · simp only [ht, if_pos rfl]
      constructor
      · intro hfalse
        simp at hfalse
      · rintro ⟨q, hqt, hq⟩
        rw [rc_confirmed] at hq
        obtain ⟨c, hc⟩ := Option.isSome_iff_exists.mp hq
        have hmem := mem_of_mlookup_some hc
        have : (merase p s.confirmed).any (fun pc => decide (pc.1.txid = p.txid)) = true :=
          any_txid_true.mpr ⟨(q, c), hmem, by simpa using hqt⟩
        rw [hcond.2] at this
        cases this
    · rw [if_neg ht]
      rw [h t]
      constructor
      · rintro ⟨q, hqt, hq⟩
        refine ⟨q, hqt, ?_⟩
        rw [rc_confirmed, mlookup_merase]
        have hqp : ¬ q = p := fun e => ht (by rw [← hqt, e])
        simpa [hqp] using hq
      · rintro ⟨q, hqt, hq⟩
        refine ⟨q, hqt, ?_⟩
        rw [rc_confirmed, mlookup_merase] at hq
        by_cases hqp : q = p
        · simp [hqp] at hq
        · simpa [hqp] using hq
  · rw [rc_proofs_eq_of_not_cond s p hcond]
    rcases Classical.em ((mlookup p s.confirmed).isSome) with hin | hout
    · -- the removed point was present but another confirmed output shares the txid
      have hany : ((merase p s.confirmed).any (fun pc => decide (pc.1.txid = p.txid))) = true := by
        rcases Bool.eq_false_or_eq_true
          ((merase p s.confirmed).any (fun pc => decide (pc.1.txid = p.txid))) with htr | hfa
        · exact htr
        · exact absurd ⟨hin, hfa⟩ hcond
      by_cases ht : t = p.txid
      · subst ht
        rw [h p.txid]
        constructor
        · intro _
          obtain ⟨⟨q, c⟩, hmem, hqt⟩ := any_txid_true.mp hany
          refine ⟨q, by simpa using hqt, ?_⟩
          rw [rc_confirmed]
          exact mlookup_isSome_of_mem hmem
        · intro _
          exact ⟨p, rfl, hin⟩
      · rw [h t]
        constructor
        · rintro ⟨q, hqt, hq⟩
          refine ⟨q, hqt, ?_⟩
          rw [rc_confirmed, mlookup_merase]
          have hqp : ¬ q = p := fun e => ht (by rw [← hqt, e])
          simpa [hqp] using hq
        · rintro ⟨q, hqt, hq⟩
          refine ⟨q, hqt, ?_⟩
          rw [rc_confirmed, mlookup_merase] at hq
          by_cases hqp : q = p
          · simp [hqp] at hq
          · simpa [hqp] using hq
    · -- the point was absent: the confirmed map is unchanged lookup-wise
      have hnone : mlookup p s.confirmed = none := by
        cases hmp : mlookup p s.confirmed with
        | none => rfl
        | some c => rw [hmp] at hout; simp at hout
      rw [h t]
      have heq : ∀ q : OutPoint,
          mlookup q (s.remove_confirmed p).1.confirmed = mlookup q s.confirmed := by
        intro q
        rw [rc_confirmed, mlookup_merase]
        by_cases hqp : q = p
        · rw [if_pos hqp, hqp, hnone]
        · rw [if_neg hqp]
      constructor
      · rintro ⟨q, hqt, hq⟩
        exact ⟨q, hqt, by rw [heq q]; exact hq⟩
      · rintro ⟨q, hqt, hq⟩
        exact ⟨q, hqt, by rw [← heq q]; exact hq⟩

theorem rc_pres_PC (s : Coins) (p : OutPoint) (h : ProofsConsistent s) :
    ProofsConsistent (s.remove_confirmed p).1 := by
  intro kp hkp
  rcases rc_proofs_cases s p with hc | hc
  · rw [hc] at hkp
    exact h kp (mem_merase hkp)
  · rw [hc] at hkp
    exact h kp hkp

/-- Generic preservation through the input-spend scan. -/
theorem removeInputs_pres (P : Coins → Prop)
    (hP : ∀ s q, P s → P (s.remove_confirmed q).1) :
    ∀ (inputs : List TxIn) (s : Coins) (m : Bool), P s → P (removeInputs inputs s m).1 := by
  intro inputs
  induction inputs with
  | nil => intro s m hs; exact hs
  | cons i rest ih =>
    intro s m hs
    exact ih _ _ (hP s i.previous_output hs)

/-! ### Generic preservation through the output scans and the block scan -/

theorem scanOutputsUnconf_pres (P : Coins → Prop)
    (la : Nat → Nat → Nat → List (Nat × Script)) (txid : Txid)
    (hstep : ∀ s vout output d, P s → P (unconfMatchState txid vout output d s)) :
    ∀ (outs : List (Nat × TxOut)) (scripts : List (Script × KeyDerivation))
      (s : Coins) (m : Bool), P s → P (scanOutputsUnconf la txid outs scripts s m).1 := by
  intro outs
  induction outs with
  | nil => intro scripts s m hs; exact hs
  | cons vo rest ih =>
    intro scripts s m hs
    rcases vo with ⟨vout, output⟩
    unfold scanOutputsUnconf
    cases hms : mlookup output.script_pubkey scripts with
    | some d => exact ih _ _ _ (hstep s vout output d hs)
    | none => exact ih _ _ _ hs

theorem scanOutputsBlock_pres (P : Coins → Prop) (block : Block) (txnr : Nat)
    (la : Nat → Nat → Nat → List (Nat × Script)) (txid : Txid)
    (hstep : ∀ s vout output d, P s → P (blockMatchState block txnr txid vout output d s)) :
    ∀ (outs : List (Nat × TxOut)) (scripts : List (Script × KeyDerivation))
      (s : Coins) (m : Bool), P s → P (scanOutputsBlock block txnr la txid outs scripts s m).1 := by
  intro outs
  induction outs with
  | nil => intro scripts s m hs; exact hs
  | cons vo rest ih =>
    intro scripts s m hs
    rcases vo with ⟨vout, output⟩
    unfold scanOutputsBlock
    cases hms : mlookup output.script_pubkey scripts with
    | some d => exact ih _ _ _ (hstep s vout output d hs)
    | none => exact ih _ _ _ hs

theorem processTxs_pres (P : Coins → Prop) (block : Block)
    (la : Nat → Nat → Nat → List (Nat × Script))
    (hrc : ∀ s q, P s → P (s.remove_confirmed q).1)
    (hstep : ∀ s txnr tx vout output d, block.txdata[txnr]? = some tx →
      P s → P (blockMatchState block txnr tx.txid vout output d s)) :
    ∀ (txs : List Transaction) (txnr : Nat) (scripts : List (Script × KeyDerivation))
      (s : Coins) (m : Bool), block.txdata.drop txnr = txs → P s →
      P (processTxs block la txnr txs scripts s m).1 := by
  intro txs
  induction txs with
  | nil => intro txnr scripts s m _ hs; exact hs
  | cons tx rest ih =>
    intro txnr scripts s m hdrop hs
    have hget : block.txdata[txnr]? = some tx := by
      have := List.getElem?_drop block.txdata txnr 0
      rw [hdrop] at this
      simpa using this.symm
    have hdrop' : block.txdata.drop (txnr + 1) = rest := by
      rw [← List.tail_drop, hdrop]
      rfl
    unfold processTxs
    dsimp only
    refine ih (txnr + 1) _ _ _ hdrop' ?_
    by_cases hc : 0 < txnr
    · simp only [if_pos hc]
      exact scanOutputsBlock_pres P block txnr la tx.txid
        (fun s' vout output d hs' => hstep s' txnr tx vout output d hget hs') _ _ _ _
        (removeInputs_pres P hrc tx.input s m hs)
    · simp only [if_neg hc]
      exact scanOutputsBlock_pres P block txnr la tx.txid
        (fun s' vout output d hs' => hstep s' txnr tx vout output d hget hs') _ _ _ _ hs

theorem process_pres (P : Coins → Prop) (block : Block) (ma : MasterAccount)
    (hrc : ∀ s q, P s → P (s.remove_confirmed q).1)
    (hstep : ∀ s txnr tx vout output d, block.txdata[txnr]? = some tx →
      P s → P (blockMatchState block txnr tx.txid vout output d s))
    (s : Coins) (hs : P s) : P (s.process ma block).1 :=
  processTxs_pres P block ma.lookAhead hrc hstep block.txdata 0 ma.scripts s false rfl hs

theorem process_unconfirmed_pres (P : Coins → Prop) (ma : MasterAccount) (tx : Transaction)
    (hrc : ∀ s q, P s → P (s.remove_confirmed q).1)
    (hstep : ∀ s vout output d, P s → P (unconfMatchState tx.txid vout output d s))
    (s : Coins) (hs : P s) : P (s.process_unconfirmed_transaction ma tx).1 :=
  scanOutputsUnconf_pres P ma.lookAhead tx.txid hstep _ _ _ _
    (removeInputs_pres P hrc tx.input s false hs)

/-! ### Invariant preservation by the scan match-steps -/

theorem unconfStep_pres_I23 (txid : Txid) (vout : Nat) (output : TxOut)
    (d : KeyDerivation) (s : Coins) (h : I23 s) :
    I23 (unconfMatchState txid vout output d s) := h

theorem unconfStep_pres_PC (txid : Txid) (vout : Nat) (output : TxOut)
    (d : KeyDerivation) (s : Coins) (h : ProofsConsistent s) :
    ProofsConsistent (unconfMatchState txid vout output d s) := h

theorem blockStep_pres_I1 (block : Block) (txnr : Nat) (txid : Txid) (vout : Nat)
    (output : TxOut) (d : KeyDerivation) (s : Coins) (h : I1 s) :
    I1 (blockMatchState block txnr txid vout output d s) := by
  intro q hq
  unfold blockMatchState at hq ⊢
  dsimp only at hq ⊢
  rw [mlookup_minsert] at hq
  rw [mlookup_merase]
  by_cases hqp : q = (⟨txid, vout⟩ : OutPoint)
  · rw [if_pos hqp]
  · rw [if_neg hqp]
    exact h q (by simpa [hqp] using hq)

theorem blockStep_pres_I23 (block : Block) (txnr : Nat) (txid : Txid) (vout : Nat)
    (output : TxOut) (d : KeyDerivation) (s : Coins) (h : I23 s) :
    I23 (blockMatchState block txnr txid vout output d s) := by
  intro t
  unfold blockMatchState
  dsimp only
  by_cases ht : t = txid
  · subst ht
    constructor
    · intro _
      exact ⟨⟨t, vout⟩, rfl, by rw [mlookup_minsert, if_pos rfl]; rfl⟩
    · intro _
      split
      · next hsome => exact hsome
      · rw [mlookup_minsert, if_pos rfl]
        rfl
  · constructor
    · intro hq
      have hq' : (mlookup t s.proofs).isSome := by
        revert hq
        split
        · exact id
        · rw [mlookup_minsert]
          rw [if_neg ht]
          exact id
      obtain ⟨q, hqt, hql⟩ := (h t).mp hq'
      refine ⟨q, hqt, ?_⟩
      rw [mlookup_minsert]
      have hqp : ¬ q = (⟨txid, vout⟩ : OutPoint) := by
        intro e
        exact ht (by rw [← hqt, e])
      rw [if_neg hqp]
      exact hql
    · rintro ⟨q, hqt, hql⟩
      have hqp : ¬ q = (⟨txid, vout⟩ : OutPoint) := by
        intro e
        exact ht (by rw [← hqt, e])
      rw [mlookup_minsert, if_neg hqp] at hql
      have := (h t).mpr ⟨q, hqt, hql⟩
      split
      · exact this
      · rw [mlookup_minsert, if_neg ht]
        exact this

theorem blockStep_pres_PC (block : Block) (txnr : Nat) (txid : Txid) (vout : Nat)
    (output : TxOut) (d : KeyDerivation) (s : Coins)
    (htx : (block.txdata.getD txnr default).txid = txid) (h : ProofsConsistent s) :
    ProofsConsistent (blockMatchState block txnr txid vout output d s) := by
  intro kp hkp
  unfold blockMatchState at hkp
  dsimp only at hkp
  revert hkp
  split
  · exact fun hkp => h kp hkp
  · intro hkp
    rcases List.mem_cons.mp hkp with h1 | h1
    · rw [h1]
      exact htx
    · exact h kp (mem_merase h1)

/-! ### Lemmas about `unwind_tip` -/

theorem unwindStep_confirmed (st : Coins) (p q : OutPoint) :
    mlookup q (unwindStep st p).confirmed = if q = p then none else mlookup q st.confirmed := by
  unfold unwindStep
  dsimp only
  split
  · rw [mlookup_merase]
  · next heq =>
    by_cases hq : q = p
    · rw [if_pos hq, hq]
      exact (heq : mlookup p st.confirmed = none)
    · rw [if_neg hq]

theorem unwindStep_proofs (st : Coins) (p : OutPoint) (t : Txid) :
    mlookup t (unwindStep st p).proofs = if t = p.txid then none else mlookup t st.proofs := by
  unfold unwindStep
  dsimp only
  split
  · exact mlookup_merase t p.txid st.proofs
  · exact mlookup_merase t p.txid st.proofs

theorem unwindStep_unconfirmed_ne (st : Coins) (p q : OutPoint) (h : ¬ q = p) :
    mlookup q (unwindStep st p).unconfirmed = mlookup q st.unconfirmed := by
  unfold unwindStep
  dsimp only
  split
  · rw [mlookup_minsert, if_neg h]
  · rfl

theorem unwindStep_unconfirmed_moved (st : Coins) (p : OutPoint) (coin : Coin)
    (h : mlookup p st.confirmed = some coin) :
    mlookup p (unwindStep st p).unconfirmed = some coin := by
  unfold unwindStep
  dsimp only
  split
  · next c heq =>
    have hc : c = coin := by
      have heq' : mlookup p st.confirmed = some c := heq
      rw [heq'] at h
      exact Option.some.inj h
    rw [mlookup_minsert, if_pos rfl, hc]
  · next heq =>
    have heq' : mlookup p st.confirmed = none := heq
    rw [heq'] at h
    exact Option.noConfusion h

theorem unwindStep_unconfirmed_skip (st : Coins) (p : OutPoint)
    (h : mlookup p st.confirmed = none) :
    mlookup p (unwindStep st p).unconfirmed = mlookup p st.unconfirmed := by
  unfold unwindStep
  dsimp only
  split
  · next c heq =>
    have heq' : mlookup p st.confirmed = some c := heq
    rw [heq'] at h
    exact Option.noConfusion h
  · rfl

theorem unwindFold_confirmed (L : List OutPoint) :
    ∀ (st : Coins) (q : OutPoint),
    mlookup q (L.foldl unwindStep st).confirmed =
      if q ∈ L then none else mlookup q st.confirmed := by
  induction L with
  | nil => intro st q; simp
  | cons p L' ih =>
    intro st q
    rw [List.foldl_cons, ih]
    by_cases hqL : q ∈ L'
    · simp [hqL]
    · rw [if_neg hqL, unwindStep_confirmed]
      by_cases hqp : q = p
      · simp [hqp]
      · simp [hqp, hqL]

theorem unwindFold_proofs (L : List OutPoint) :
    ∀ (st : Coins) (t : Txid),
    mlookup t (L.foldl unwindStep st).proofs =
      if t ∈ L.map OutPoint.txid then none else mlookup t st.proofs := by
  induction L with
  | nil => intro st t; simp
  | cons p L' ih =>
    intro st t
    rw [List.foldl_cons, ih]
    by_cases htL : t ∈ L'.map OutPoint.txid
    · simp [htL]
    · rw [if_neg htL, unwindStep_proofs]
      by_cases htp : t = p.txid
      · simp [htp]
      · simp [htp, htL]

theorem unwindFold_unconfirmed_stable (L : List OutPoint) :
    ∀ (st : Coins) (p : OutPoint) (C : Coin),
    mlookup p st.confirmed = none → mlookup p st.unconfirmed = some C →
    mlookup p (L.foldl unwindStep st).unconfirmed = some C := by
  induction L with
  | nil => intro st p C _ hu; exact hu
  | cons q L' ih =>
    intro st p C hc hu
    rw [List.foldl_cons]
    apply ih
    · rw [unwindStep_confirmed]
      by_cases hpq : p = q
      · simp [hpq]
      · simp [hpq, hc]
    · by_cases hpq : p = q
      · subst hpq
        rw [unwindStep_unconfirmed_skip st p hc]
        exact hu
      · rw [unwindStep_unconfirmed_ne st q p hpq]
        exact hu

theorem unwindFold_unconfirmed_moved (L : List OutPoint) :
    ∀ (st : Coins) (p : OutPoint) (C : Coin),
    p ∈ L → mlookup p st.confirmed = some C →
    mlookup p (L.foldl unwindStep st).unconfirmed = some C := by
  induction L with
  | nil => intro st p C hmem _; exact absurd hmem (List.not_mem_nil p)
  | cons q L' ih =>
    intro st p C hmem hc
    rw [List.foldl_cons]
    by_cases hpq : p = q
    · subst hpq
      have hu : mlookup p (unwindStep st p).unconfirmed = some C :=
        unwindStep_unconfirmed_moved st p C hc
      have hcn : mlookup p (unwindStep st p).confirmed = none := by
        rw [unwindStep_confirmed]
        simp
      exact unwindFold_unconfirmed_stable L' _ p C hcn hu
    · have hmem' : p ∈ L' := by
        rcases List.mem_cons.mp hmem with h1 | h1
        · exact absurd h1 hpq
        · exact h1
      apply ih _ p C hmem'
      rw [unwindStep_confirmed, if_neg hpq]
      exact hc

theorem mem_lostCoins (s : Coins) (h : BlockHash) (q : OutPoint) :
    q ∈ lostCoins s h ↔
      (∃ kp ∈ s.proofs, (kp : Txid × ProvedTransaction).2.block_hash = h ∧
        kp.2.transaction.txid = q.txid) ∧
      ∃ c, (q, c) ∈ s.confirmed := by
  unfold lostCoins
  constructor
  · intro hq
    rcases List.mem_flatMap.mp hq with ⟨t, ht, hq2⟩
    rcases List.mem_filterMap.mp ht with ⟨kp, hkp, hf⟩
    have hbh : kp.2.block_hash = h ∧ kp.2.transaction.txid = t := by
      by_cases hc : kp.2.block_hash = h
      · rw [if_pos hc] at hf
        exact ⟨hc, Option.some.inj hf⟩
      · rw [if_neg hc] at hf
        exact Option.noConfusion hf
    rcases List.mem_map.mp hq2 with ⟨pc, hpc, hpq⟩
    rcases List.mem_filter.mp hpc with ⟨hpcm, hpct⟩
    have hpct' : pc.1.txid = t := of_decide_eq_true hpct
    refine ⟨⟨kp, hkp, hbh.1, ?_⟩, ⟨pc.2, ?_⟩⟩
    · rw [hbh.2, ← hpct', hpq]
    · rcases pc with ⟨p1, c1⟩
      cases hpq
      exact hpcm
  · rintro ⟨⟨kp, hkp, hh, htx⟩, c, hc⟩
    apply List.mem_flatMap.mpr
    refine ⟨q.txid, ?_, ?_⟩
    · apply List.mem_filterMap.mpr
      exact ⟨kp, hkp, by rw [if_pos hh, htx]⟩
    · apply List.mem_map.mpr
      refine ⟨(q, c), ?_, rfl⟩
      exact List.mem_filter.mpr ⟨hc, by simp⟩

theorem unwindStep_pres_I1 (st : Coins) (p : OutPoint) (h : I1 st) : I1 (unwindStep st p) := by
  intro q hq
  rw [unwindStep_confirmed] at hq
  by_cases hqp : q = p
  · rw [if_pos hqp] at hq
    simp at hq
  · rw [if_neg hqp] at hq
    rw [unwindStep_unconfirmed_ne st p q hqp]
    exact h q hq

theorem unwindStep_pres_PC (st : Coins) (p : OutPoint) (h : ProofsConsistent st) :
    ProofsConsistent (unwindStep st p) := by
  intro kp hkp
  unfold unwindStep at hkp
  dsimp only at hkp
  revert hkp
  split
  · intro hkp
    exact h kp (mem_merase hkp)
  · intro hkp
    exact h kp (mem_merase hkp)

theorem unwindFold_pres_I1 (L : List OutPoint) :
    ∀ st : Coins, I1 st → I1 (L.foldl unwindStep st) := by
  induction L with
  | nil => intro st h; exact h
  | cons p L' ih =>
    intro st h
    rw [List.foldl_cons]
    exact ih _ (unwindStep_pres_I1 st p h)

theorem unwindFold_pres_PC (L : List OutPoint) :
    ∀ st : Coins, ProofsConsistent st → ProofsConsistent (L.foldl unwindStep st) := by
  induction L with
  | nil => intro st h; exact h
  | cons p L' ih =>
    intro st h
    rw [List.foldl_cons]
    exact ih _ (unwindStep_pres_PC st p h)

theorem unwind_pres_I1 (s : Coins) (h : BlockHash) (hI : I1 s) : I1 (s.unwind_tip h) :=
  unwindFold_pres_I1 _ s hI

theorem unwind_pres_PC (s : Coins) (h : BlockHash) (hPC : ProofsConsistent s) :
    ProofsConsistent (s.unwind_tip h) :=
  unwindFold_pres_PC _ s hPC

theorem unwind_pres_I23 (s : Coins) (h : BlockHash) (hI : I23 s)
    (hPC : ProofsConsistent s) : I23 (s.unwind_tip h) := by
  intro t
  unfold Coins.unwind_tip
  by_cases hm : ∃ kp ∈ s.proofs, (kp : Txid × ProvedTransaction).2.block_hash = h ∧
      kp.2.transaction.txid = t
  · obtain ⟨kp, hkp, hbh, htx⟩ := hm
    have hk1 : kp.1 = t := by
      rw [← hPC kp hkp]
      exact htx
    have hsome : (mlookup t s.proofs).isSome := by
      have hmemt : (t, kp.2) ∈ s.proofs := by
        rw [← hk1]
        exact hkp
      exact mlookup_isSome_of_mem hmemt
    obtain ⟨q0, hq0t, hq0⟩ := (hI t).mp hsome
    obtain ⟨c0, hc0⟩ := Option.isSome_iff_exists.mp hq0
    have hq0L : q0 ∈ lostCoins s h :=
      (mem_lostCoins s h q0).mpr
        ⟨⟨kp, hkp, hbh, by rw [htx, hq0t]⟩, ⟨c0, mem_of_mlookup_some hc0⟩⟩
    have htL : t ∈ (lostCoins s h).map OutPoint.txid :=
      List.mem_map.mpr ⟨q0, hq0L, hq0t⟩
    rw [unwindFold_proofs, if_pos htL]
    constructor
    · intro hfalse
      simp at hfalse
    · rintro ⟨p, hpt, hp⟩
      rw [unwindFold_confirmed] at hp
      by_cases hpL : p ∈ lostCoins s h
      · rw [if_pos hpL] at hp
        simp at hp
      · rw [if_neg hpL] at hp
        obtain ⟨c, hcp⟩ := Option.isSome_iff_exists.mp hp
        exact absurd ((mem_lostCoins s h p).mpr
          ⟨⟨kp, hkp, hbh, by rw [htx, hpt]⟩, ⟨c, mem_of_mlookup_some hcp⟩⟩) hpL
  · have htL : ¬ t ∈ (lostCoins s h).map OutPoint.txid := by
      intro hmem
      obtain ⟨q, hqL, hqt⟩ := List.mem_map.mp hmem
      obtain ⟨⟨kp, hkp, hbh, htx⟩, _⟩ := (mem_lostCoins s h q).mp hqL
      exact hm ⟨kp, hkp, hbh, by rw [htx, hqt]⟩
    rw [unwindFold_proofs, if_neg htL]
    rw [hI t]
    constructor
    · rintro ⟨p, hpt, hp⟩
      refine ⟨p, hpt, ?_⟩
      rw [unwindFold_confirmed]
      have hpL : ¬ p ∈ lostCoins s h := by
        intro hpL
        obtain ⟨⟨kp, hkp, hbh, htx⟩, _⟩ := (mem_lostCoins s h p).mp hpL
        exact hm ⟨kp, hkp, hbh, by rw [htx, hpt]⟩
      rw [if_neg hpL]
      exact hp
    · rintro ⟨p, hpt, hp⟩
      rw [unwindFold_confirmed] at hp
      by_cases hpL : p ∈ lostCoins s h
      · rw [if_pos hpL] at hp
        simp at hp
      · rw [if_neg hpL] at hp
        exact ⟨p, hpt, hp⟩

/-! ### Trace-level invariant preservation -/

theorem eq_none_of_isSome_false {α : Type} {o : Option α} (h : o.isSome = false) :
    o = none := by
  cases o
  · rfl
  · simp at h

theorem getD_of_getElem? (l : List Transaction) (n : Nat) (tx : Transaction)
    (h : l[n]? = some tx) : l.getD n default = tx := by
  rw [List.getD_eq_getElem?_getD, h]
  rfl

theorem step_pres_I23_PC (s : Coins) (op : LOp)
    (h : I23 s ∧ ProofsConsistent s) :
    I23 (s.step op) ∧ ProofsConsistent (s.step op) := by
  cases op with
  | proc ma b =>
    constructor
    · exact process_pres I23 b ma (fun s' q h' => rc_pres_I23 s' q h')
        (fun s' txnr tx vout output d _ h' =>
          blockStep_pres_I23 b txnr tx.txid vout output d s' h') s h.1
    · exact process_pres ProofsConsistent b ma (fun s' q h' => rc_pres_PC s' q h')
        (fun s' txnr tx vout output d hget h' =>
          blockStep_pres_PC b txnr tx.txid vout output d s'
            (by rw [getD_of_getElem? b.txdata txnr tx hget]) h') s h.2
  | procUnconf ma tx =>
    constructor
    · exact process_unconfirmed_pres I23 ma tx (fun s' q h' => rc_pres_I23 s' q h')
        (fun s' vout output d h' => unconfStep_pres_I23 tx.txid vout output d s' h') s h.1
    · exact process_unconfirmed_pres ProofsConsistent ma tx (fun s' q h' => rc_pres_PC s' q h')
        (fun s' vout output d h' => unconfStep_pres_PC tx.txid vout output d s' h') s h.2
  | removeConf p => exact ⟨rc_pres_I23 s p h.1, rc_pres_PC s p h.2⟩
  | unwind hb => exact ⟨unwind_pres_I23 s hb h.1 h.2, unwind_pres_PC s hb h.2⟩

theorem run_pres_I23_PC : ∀ (ops : List LOp) (s : Coins),
    I23 s ∧ ProofsConsistent s →
    I23 (s.run ops) ∧ ProofsConsistent (s.run ops) := by
  intro ops
  induction ops with
  | nil => intro s h; exact h
  | cons op rest ih =>
    intro s h
    exact ih (s.step op) (step_pres_I23_PC s op h)

theorem new_I23 : I23 Coins.new := by
  intro t
  constructor
  · intro h
    simp [Coins.new, mlookup] at h
  · rintro ⟨p, _, hp⟩
    simp [Coins.new, mlookup] at hp

theorem new_PC : ProofsConsistent Coins.new := by
  intro kp hkp
  simp [Coins.new] at hkp

theorem new_I1 : I1 Coins.new := by
  intro p hp
  simp [Coins.new, mlookup] at hp

/-- Guard of a ledger call for invariant I1: a `process_unconfirmed_transaction`
call must not concern a transaction one of whose output references is currently
confirmed (the unconfirmed scan inserts at (txid, vout) without consulting the
confirmed map, coins.rs:80). -/
def okOp (s : Coins) : LOp → Bool
  | .procUnconf _ tx =>
    (enumFrom 0 tx.output).all (fun vo => !(mlookup ⟨tx.txid, vo.1⟩ s.confirmed).isSome)
  | _ => true

/-- Guard of a whole trace: every call satisfies `okOp` in the state where it
is issued. -/
def okTrace : Coins → List LOp → Bool
  | _, [] => true
  | s, op :: ops => okOp s op && okTrace (s.step op) ops

theorem scanOutputsUnconf_pres_I1 (la : Nat → Nat → Nat → List (Nat × Script)) (txid : Txid) :
    ∀ (outs : List (Nat × TxOut)) (scripts : List (Script × KeyDerivation))
      (s : Coins) (m : Bool), I1 s →
    (∀ vo ∈ outs, mlookup ⟨txid, (vo : Nat × TxOut).1⟩ s.confirmed = none) →
    I1 (scanOutputsUnconf la txid outs scripts s m).1 := by
  intro outs
  induction outs with
  | nil => intro scripts s m hI _; exact hI
  | cons vo rest ih =>
    intro scripts s m hI hcond
    rcases vo with ⟨vout, output⟩
    unfold scanOutputsUnconf
    cases hms : mlookup output.script_pubkey scripts with
    | some d =>
      apply ih
      · intro q hq
        have hq' : (mlookup q s.confirmed).isSome := hq
        unfold unconfMatchState
        dsimp only
        rw [mlookup_minsert]
        by_cases hqp : q = (⟨txid, vout⟩ : OutPoint)
        · have := hcond (vout, output) (List.mem_cons_self _ _)
          dsimp only at this
          rw [hqp, this] at hq'
          simp at hq'
        · rw [if_neg hqp]
          exact hI q hq'
      · intro vo hvo
        exact hcond vo (List.mem_cons_of_mem _ hvo)
    | none =>
      apply ih _ _ _ hI
      intro vo hvo
      exact hcond vo (List.mem_cons_of_mem _ hvo)

theorem procUnconf_pres_I1 (s : Coins) (ma : MasterAccount) (tx : Transaction)
    (hI : I1 s) (hok : okOp s (.procUnconf ma tx) = true) :
    I1 (s.process_unconfirmed_transaction ma tx).1 := by
  unfold Coins.process_unconfirmed_transaction
  dsimp only
  have hcond0 : ∀ vo ∈ enumFrom 0 tx.output,
      mlookup ⟨tx.txid, (vo : Nat × TxOut).1⟩ s.confirmed = none := by
    intro vo hvo
    have := List.all_eq_true.mp hok vo hvo
    exact eq_none_of_isSome_false (by simpa using this)
  have hP : I1 (removeInputs tx.input s false).1 ∧
      ∀ vo ∈ enumFrom 0 tx.output,
        mlookup ⟨tx.txid, (vo : Nat × TxOut).1⟩ (removeInputs tx.input s false).1.confirmed = none := by
    refine removeInputs_pres
      (fun s' => I1 s' ∧ ∀ vo ∈ enumFrom 0 tx.output,
        mlookup ⟨tx.txid, (vo : Nat × TxOut).1⟩ s'.confirmed = none)
      ?_ tx.input s false ⟨hI, hcond0⟩
    intro s' q hs'
    refine ⟨rc_pres_I1 s' q hs'.1, ?_⟩
    intro vo hvo
    rw [rc_confirmed, mlookup_merase]
    by_cases hqp : (⟨tx.txid, (vo : Nat × TxOut).1⟩ : OutPoint) = q
    · rw [if_pos hqp]
    · rw [if_neg hqp]
      exact hs'.2 vo hvo
  exact scanOutputsUnconf_pres_I1 ma.lookAhead tx.txid _ _ _ _ hP.1 hP.2

theorem step_pres_I1 (s : Coins) (op : LOp) (hok : okOp s op = true) (hI : I1 s) :
    I1 (s.step op) := by
  cases op with
  | proc ma b =>
    exact process_pres I1 b ma (fun s' q h' => rc_pres_I1 s' q h')
      (fun s' txnr tx vout output d _ h' =>
        blockStep_pres_I1 b txnr tx.txid vout output d s' h') s hI
  | procUnconf ma tx => exact procUnconf_pres_I1 s ma tx hI hok
  | removeConf p => exact rc_pres_I1 s p hI
  | unwind hb => exact unwind_pres_I1 s hb hI

theorem run_pres_I1 : ∀ (ops : List LOp) (s : Coins), okTrace s ops = true →
    I1 s → I1 (s.run ops) := by
  intro ops
  induction ops with
  | nil => intro s _ hI; exact hI
  | cons op rest ih =>
    intro s hok hI
    rcases Bool.and_eq_true_iff.mp hok with ⟨hok1, hok2⟩
    exact ih (s.step op) hok2 (step_pres_I1 s op hok1 hI)

/-! ### Claim C3: invariants I2 and I3 -/

/-- C3: starting from the empty ledger, after every finite sequence of
`process`, `process_unconfirmed_transaction`, `remove_confirmed` and
`unwind_tip` calls, a transaction id is a key of the proofs map iff at least
one output reference with that transaction id is a key of the confirmed map
(so every confirmed output's transaction id has a proof, and no proof is
orphaned). -/
theorem claim_C3_proofs_key_iff_confirmed (ops : List LOp) :
    I23 (Coins.new.run ops) :=
  (run_pres_I23_PC ops Coins.new ⟨new_I23, new_PC⟩).1

/-! ### Claim C2: invariant I1 -/

/-- C2 (amended): starting from the empty ledger, invariant I1 (no output
reference is a key of both the confirmed and the unconfirmed map) holds after
every finite sequence of the four calls in which each
`process_unconfirmed_transaction` call is applied to a transaction none of
whose output references is currently a key of the confirmed map.  The guard is
necessary: re-processing an already confirmed transaction as unconfirmed
violates I1 (see the counterexample). -/
theorem claim_C2_I1_preservation (ops : List LOp)
    (hok : okTrace Coins.new ops = true) : I1 (Coins.new.run ops) :=
  run_pres_I1 ops Coins.new hok new_I1

/-- Derivation watching script 7, used by the concrete I1 scenarios. -/
def c2deriv : KeyDerivation := ⟨0, 0, 0, none, none⟩

/-- Collaborator watching script 7 with an empty lookahead. -/
def c2ma : MasterAccount := ⟨[(7, c2deriv)], fun _ _ _ => []⟩

/-- Transaction 1 paying 5000 to watched script 7. -/
def c2tx : Transaction := ⟨1, [], [⟨5000, 7⟩]⟩

/-- Block 100 containing a coinbase and transaction 1. -/
def c2block : Block := ⟨100, [⟨9, [], []⟩, c2tx]⟩

/-- Trace that violates I1: confirm transaction 1 from a block, then process
the same transaction as unconfirmed. -/
def c2badOps : List LOp := [.proc c2ma c2block, .procUnconf c2ma c2tx]

/-- Guarded trace exercising all four calls. -/
def c2okOps : List LOp :=
  [.procUnconf c2ma c2tx, .proc c2ma c2block, .removeConf ⟨1, 0⟩, .unwind 100]

/-- C2 counterexample: after confirming transaction 1 and then processing it as
unconfirmed, output reference (1, 0) is a key of both the confirmed and the
unconfirmed map, so the unguarded claim is false. -/
theorem claim_C2_counterexample : ¬ I1 (Coins.new.run c2badOps) := fun h =>
  absurd (h ⟨1, 0⟩ (by decide)) (by decide)

/-- C2 witness: the guarded trace satisfies the guard and yields I1. -/
theorem claim_C2_witness :
    okTrace Coins.new c2okOps = true ∧ I1 (Coins.new.run c2okOps) :=
  ⟨by decide, claim_C2_I1_preservation c2okOps (by decide)⟩

/-! ### Claim C7: `remove_confirmed` postcondition -/

/-- C7 (amended): `remove_confirmed p` returns true iff `p` was a key of the
confirmed map; afterwards `p` is absent from confirmed; and the proofs entry
for `p`'s transaction id is removed exactly when `p` was present and, after
removing `p`, no remaining confirmed output reference shares that transaction
id.  (The presence condition is necessary: on a state with an orphaned proof
and `p` absent, the call leaves the proofs map unchanged, see the
counterexample.) -/
theorem claim_C7_remove_confirmed_post (s : Coins) (p : OutPoint) :
    (s.remove_confirmed p).2 = (mlookup p s.confirmed).isSome ∧
    mlookup p (s.remove_confirmed p).1.confirmed = none ∧
    ((mlookup p s.confirmed).isSome = true ∧
      (∀ q c, (q, c) ∈ (s.remove_confirmed p).1.confirmed → q.txid ≠ p.txid) →
      (s.remove_confirmed p).1.proofs = merase p.txid s.proofs) ∧
    (¬ ((mlookup p s.confirmed).isSome = true ∧
      (∀ q c, (q, c) ∈ (s.remove_confirmed p).1.confirmed → q.txid ≠ p.txid)) →
      (s.remove_confirmed p).1.proofs = s.proofs) := by
  refine ⟨rc_modified s p, ?_, ?_, ?_⟩
  · rw [rc_confirmed, mlookup_merase, if_pos rfl]
  · rintro ⟨hsome, hnorem⟩
    have hany : ((merase p s.confirmed).any (fun pc => decide (pc.1.txid = p.txid))) = false := by
      rcases Bool.eq_false_or_eq_true
        ((merase p s.confirmed).any (fun pc => decide (pc.1.txid = p.txid))) with htr | hfa
      · obtain ⟨pc, hpc, hpct⟩ := any_txid_true.mp htr
        have : pc.1.txid ≠ p.txid := by
          have hpc' : (pc.1, pc.2) ∈ (s.remove_confirmed p).1.confirmed := by
            rw [rc_confirmed]
            exact hpc
          exact hnorem pc.1 pc.2 hpc'
        exact absurd hpct this
      · exact hfa
    exact rc_proofs_eq_of_removed_none_remaining s p hsome hany
  · intro hnot
    apply rc_proofs_eq_of_not_cond
    rintro ⟨hsome, hany⟩
    apply hnot
    refine ⟨hsome, ?_⟩
    intro q c hqc ht
    have : ((merase p s.confirmed).any (fun pc => decide (pc.1.txid = p.txid))) = true := by
      apply any_txid_true.mpr
      refine ⟨(q, c), ?_, ht⟩
      rw [rc_confirmed] at hqc
      exact hqc
    rw [hany] at this
    exact Bool.noConfusion this

/-- Orphan-proof state for the C7 counterexample: the proofs map holds an entry
for transaction id 3 while the confirmed map is empty. -/
def c7state : Coins := ⟨[], [], [(3, ⟨⟨3, [], []⟩, 50⟩)]⟩

/-- C7 counterexample: calling `remove_confirmed (3, 0)` on the orphan state
leaves the proofs entry for transaction id 3 in place even though no confirmed
output shares that transaction id (the confirmed map is empty), so the
claim's unconditional "exactly when" is false. -/
theorem claim_C7_counterexample :
    (c7state.remove_confirmed ⟨3, 0⟩).1.confirmed = [] ∧
    mlookup 3 (c7state.remove_confirmed ⟨3, 0⟩).1.proofs ≠ none := by decide

/-- Well-formed state for the C7 witness: one confirmed coin of transaction 4
with its proof. -/
def c7wState : Coins :=
  ⟨[], [(⟨4, 0⟩, ⟨⟨5000, 7⟩, ⟨0, 0, 0, none, none⟩⟩)], [(4, ⟨⟨4, [], []⟩, 60⟩)]⟩

/-- C7 witness: removing the only confirmed output of transaction 4 removes
the proof entry for transaction id 4. -/
theorem claim_C7_witness :
    (c7wState.remove_confirmed ⟨4, 0⟩).1.proofs = merase 4 c7wState.proofs :=
  (claim_C7_remove_confirmed_post c7wState ⟨4, 0⟩).2.2.1
    ⟨by decide, fun q c hqc => by
      have hconf : (c7wState.remove_confirmed ⟨4, 0⟩).1.confirmed = [] := by decide
      rw [hconf] at hqc
      exact absurd hqc (List.not_mem_nil _)⟩

/-! ### Proof-installation lemmas about `process` -/

theorem process_proofs_fresh (s : Coins) (ma : MasterAccount) (block : Block) (t : Txid)
    (h0 : mlookup t s.proofs = none) :
    mlookup t (s.process ma block).1.proofs = none ∨
    ∃ txnr tx, block.txdata[txnr]? = some tx ∧ tx.txid = t ∧
      mlookup t (s.process ma block).1.proofs = some (ProvedTransaction.new block txnr) := by
  refine process_pres (fun st => mlookup t st.proofs = none ∨
    ∃ txnr tx, block.txdata[txnr]? = some tx ∧ tx.txid = t ∧
      mlookup t st.proofs = some (ProvedTransaction.new block txnr)) block ma
    ?_ ?_ s (Or.inl h0)
  · intro s' q hF
    rcases rc_proofs_cases s' q with hc | hc
    · by_cases ht : t = q.txid
      · left
        rw [hc, mlookup_merase, if_pos ht]
      · rcases hF with h | ⟨txnr, tx, hg, htx, hl⟩
        · left
          rw [hc, mlookup_merase, if_neg ht]
          exact h
        · right
          exact ⟨txnr, tx, hg, htx, by rw [hc, mlookup_merase, if_neg ht]; exact hl⟩
    · rcases hF with h | ⟨txnr, tx, hg, htx, hl⟩
      · left
        rw [hc]
        exact h
      · right
        exact ⟨txnr, tx, hg, htx, by rw [hc]; exact hl⟩
  · intro s' txnr tx vout output d hget hF
    unfold blockMatchState
    dsimp only
    split
    · exact hF
    · by_cases htt : t = tx.txid
      · right
        refine ⟨txnr, tx, hget, htt.symm, ?_⟩
        rw [mlookup_minsert, if_pos htt]
      · rcases hF with h | ⟨txnr', tx', hg', htx', hl'⟩
        · left
          rw [mlookup_minsert, if_neg htt]
          exact h
        · right
          exact ⟨txnr', tx', hg', htx', by rw [mlookup_minsert, if_neg htt]; exact hl'⟩

theorem process_new_confirmed_has_proof (s : Coins) (ma : MasterAccount) (block : Block)
    (p : OutPoint) (h0 : mlookup p s.confirmed = none) :
    (mlookup p (s.process ma block).1.confirmed).isSome →
    (mlookup p.txid (s.process ma block).1.proofs).isSome := by
  refine process_pres
    (fun st => (mlookup p st.confirmed).isSome → (mlookup p.txid st.proofs).isSome)
    block ma ?_ ?_ s ?_
  · intro s' q hJ
    unfold Coins.remove_confirmed
    dsimp only
    split
    · next hcnd =>
      intro hc
      rw [mlookup_merase] at hc
      by_cases hpq : p = q
      · rw [if_pos hpq] at hc
        simp at hc
      · rw [if_neg hpq] at hc
        by_cases ht : p.txid = q.txid
        · exfalso
          obtain ⟨c, hcl⟩ := Option.isSome_iff_exists.mp hc
          have hmem0 : (p, c) ∈ s'.confirmed := mem_of_mlookup_some hcl
          have hmem : (p, c) ∈ merase q s'.confirmed :=
            List.mem_filter.mpr ⟨hmem0, decide_eq_true hpq⟩
          have : ((merase q s'.confirmed).any
              (fun pc => decide (pc.1.txid = q.txid))) = true :=
            any_txid_true.mpr ⟨(p, c), hmem, ht⟩
          rw [hcnd.2] at this
          exact Bool.noConfusion this
        · rw [mlookup_merase, if_neg ht]
          exact hJ hc
    · intro hc
      rw [mlookup_merase] at hc
      by_cases hpq : p = q
      · rw [if_pos hpq] at hc
        simp at hc
      · rw [if_neg hpq] at hc
        exact hJ hc
  · intro s' txnr tx vout output d hget hJ
    unfold blockMatchState
    dsimp only
    intro hc
    rw [mlookup_minsert] at hc
    by_cases hpp : p = (⟨tx.txid, vout⟩ : OutPoint)
    · have hpt : p.txid = tx.txid := by rw [hpp]
      split
      · next hsome =>
        rw [hpt]
        exact hsome
      · rw [mlookup_minsert, if_pos hpt]
        rfl
    · rw [if_neg hpp] at hc
      have hK := hJ hc
      split
      · exact hK
      · rw [mlookup_minsert]
        by_cases ht : p.txid = tx.txid
        · rw [if_pos ht]
          rfl
        · rw [if_neg ht]
          exact hK
  · intro hc
    rw [h0] at hc
    simp at hc

theorem merase_keys_sublist {K V : Type} [DecidableEq K] (k : K) (m : List (K × V)) :
    ((merase k m).map Prod.fst).Sublist (m.map Prod.fst) :=
  (List.filter_sublist m).map Prod.fst

theorem not_mem_merase_keys {K V : Type} [DecidableEq K] (k : K) (m : List (K × V)) :
    k ∉ (merase k m).map Prod.fst := by
  intro h
  rcases List.mem_map.mp h with ⟨kv, hkv, hfst⟩
  have hne : kv.1 ≠ k := of_decide_eq_true (List.mem_filter.mp hkv).2
  exact hne hfst

theorem minsert_keys_nodup {K V : Type} [DecidableEq K] (k : K) (v : V) (m : List (K × V))
    (h : (m.map Prod.fst).Nodup) : ((minsert k v m).map Prod.fst).Nodup := by
  unfold minsert
  rw [List.map_cons]
  exact List.nodup_cons.mpr
    ⟨not_mem_merase_keys k m, List.Nodup.sublist (merase_keys_sublist k m) h⟩

theorem process_pres_proofs_nodup (s : Coins) (ma : MasterAccount) (block : Block)
    (h : (s.proofs.map Prod.fst).Nodup) :
    ((s.process ma block).1.proofs.map Prod.fst).Nodup := by
  refine process_pres (fun st => (st.proofs.map Prod.fst).Nodup) block ma ?_ ?_ s h
  · intro s' q hn
    rcases rc_proofs_cases s' q with hc | hc
    · rw [hc]
      exact List.Nodup.sublist (merase_keys_sublist q.txid s'.proofs) hn
    · rw [hc]
      exact hn
  · intro s' txnr tx vout output d _ hn
    unfold blockMatchState
    dsimp only
    split
    · exact hn
    · exact minsert_keys_nodup tx.txid _ s'.proofs hn

/-! ### Claim C4: confirm/unwind round trip -/

/-- C4: if `process` on a block newly confirms coin `C` at output reference
`p` (before the call `p` is not confirmed and `p`'s transaction has no proof;
after the call `C` is stored under `p` in confirmed, which entails that the
call installed this block's proof for `p`'s transaction id), then immediately
calling `unwind_tip` with that block's hash leaves `p` absent from confirmed,
the proofs map without an entry for `p`'s transaction id, and `C` stored under
`p` in unconfirmed — for that coin, the same state as immediately after an
unconfirmed detection. -/
theorem claim_C4_confirm_unwind_round_trip (s : Coins) (ma : MasterAccount)
    (block : Block) (p : OutPoint) (C : Coin)
    (h0 : mlookup p s.confirmed = none)
    (h1 : mlookup p.txid s.proofs = none)
    (h2 : mlookup p (s.process ma block).1.confirmed = some C) :
    mlookup p ((s.process ma block).1.unwind_tip block.hash).confirmed = none ∧
    mlookup p.txid ((s.process ma block).1.unwind_tip block.hash).proofs = none ∧
    mlookup p ((s.process ma block).1.unwind_tip block.hash).unconfirmed = some C := by
  have hJ : (mlookup p.txid (s.process ma block).1.proofs).isSome :=
    process_new_confirmed_has_proof s ma block p h0 (by rw [h2]; rfl)
  rcases process_proofs_fresh s ma block p.txid h1 with hnone | ⟨txnr, tx, hget, htx, hl⟩
  · rw [hnone] at hJ
    exact Bool.noConfusion hJ
  · have htxd : block.txdata.getD txnr default = tx := getD_of_getElem? block.txdata txnr tx hget
    have hmempr : (p.txid, ProvedTransaction.new block txnr) ∈ (s.process ma block).1.proofs :=
      mem_of_mlookup_some hl
    have hbh : (ProvedTransaction.new block txnr).block_hash = block.hash := rfl
    have hptx : (ProvedTransaction.new block txnr).transaction.txid = p.txid := by
      unfold ProvedTransaction.new
      dsimp only
      rw [htxd, htx]
    have hpL : p ∈ lostCoins (s.process ma block).1 block.hash :=
      (mem_lostCoins _ block.hash p).mpr
        ⟨⟨(p.txid, ProvedTransaction.new block txnr), hmempr, hbh, hptx⟩,
          ⟨C, mem_of_mlookup_some h2⟩⟩
    refine ⟨?_, ?_, ?_⟩
    · unfold Coins.unwind_tip
      rw [unwindFold_confirmed, if_pos hpL]
    · unfold Coins.unwind_tip
      rw [unwindFold_proofs, if_pos (List.mem_map.mpr ⟨p, hpL, rfl⟩)]
    · unfold Coins.unwind_tip
      exact unwindFold_unconfirmed_moved _ _ p C hpL h2

/-- Derivation watching script 7 for the C4 witness scenario. -/
def c4deriv : KeyDerivation := ⟨0, 0, 0, none, none⟩

/-- Collaborator for the C4 witness scenario. -/
def c4ma : MasterAccount := ⟨[(7, c4deriv)], fun _ _ _ => []⟩

/-- Coin confirmed and unwound in the C4 witness scenario. -/
def c4coin : Coin := ⟨⟨5000, 7⟩, c4deriv⟩

/-- Block 300 confirming transaction 1 in the C4 witness scenario. -/
def c4block : Block := ⟨300, [⟨9, [], []⟩, ⟨1, [], [⟨5000, 7⟩]⟩]⟩

/-- C4 witness: confirming the coin from block 300 and unwinding block 300
leaves the coin unconfirmed with no proof. -/
theorem claim_C4_witness :
    mlookup ⟨1, 0⟩ ((Coins.new.process c4ma c4block).1.unwind_tip c4block.hash).confirmed
      = none ∧
    mlookup (1 : Txid)
      ((Coins.new.process c4ma c4block).1.unwind_tip c4block.hash).proofs = none ∧
    mlookup ⟨1, 0⟩ ((Coins.new.process c4ma c4block).1.unwind_tip c4block.hash).unconfirmed
      = some c4coin :=
  claim_C4_confirm_unwind_round_trip Coins.new c4ma c4block ⟨1, 0⟩ c4coin
    (by decide) (by decide) (by decide)

/-! ### Claim C8: one proof per confirmed transaction -/

/-- C8: when `process` scans a block, at most one proofs entry exists per
transaction id (key-uniqueness is preserved), a transaction id with no prior
proof whose outputs get newly confirmed obtains a proofs entry, and that entry
is the proof constructed for this block at the transaction's position —
identical for every owned output of the transaction, so the first owned output
creates it and later owned outputs of the same transaction reuse it rather
than replace it. -/
theorem claim_C8_one_proof_per_tx (s : Coins) (ma : MasterAccount) (block : Block)
    (t : Txid) (hnd : (s.proofs.map Prod.fst).Nodup)
    (hfresh : mlookup t s.proofs = none) :
    (((s.process ma block).1.proofs.map Prod.fst).count t ≤ 1) ∧
    (∀ v : Nat, (mlookup ⟨t, v⟩ (s.process ma block).1.confirmed).isSome →
      mlookup (⟨t, v⟩ : OutPoint) s.confirmed = none →
      (mlookup t (s.process ma block).1.proofs).isSome) ∧
    (∀ pr, mlookup t (s.process ma block).1.proofs = some pr →
      ∃ txnr tx, block.txdata[txnr]? = some tx ∧ tx.txid = t ∧
        pr = ProvedTransaction.new block txnr) := by
  refine ⟨?_, ?_, ?_⟩
  · exact List.nodup_iff_count_le_one.mp (process_pres_proofs_nodup s ma block hnd) t
  · intro v hconf hnew
    exact process_new_confirmed_has_proof s ma block ⟨t, v⟩ hnew hconf
  · intro pr hpr
    rcases process_proofs_fresh s ma block t hfresh with hnone | ⟨txnr, tx, hget, htx, hl⟩
    · rw [hpr] at hnone
      exact Option.noConfusion hnone
    · rw [hpr] at hl
      exact ⟨txnr, tx, hget, htx, Option.some.inj hl⟩

/-- Derivation watching script 7 for the C8 witness scenario. -/
def c8deriv : KeyDerivation := ⟨0, 0, 0, none, none⟩

/-- Collaborator for the C8 witness scenario. -/
def c8ma : MasterAccount := ⟨[(7, c8deriv)], fun _ _ _ => []⟩

/-- Block with one transaction paying two outputs to the watched script. -/
def c8block : Block := ⟨200, [⟨9, [], []⟩, ⟨1, [], [⟨5000, 7⟩, ⟨6000, 7⟩]⟩]⟩

/-- C8 witness: a block whose transaction 1 has two owned outputs produces
exactly one proofs entry for transaction id 1. -/
theorem claim_C8_witness :
    (((Coins.new.process c8ma c8block).1.proofs.map Prod.fst).count 1 ≤ 1) ∧
    (((Coins.new.process c8ma c8block).1.proofs.map Prod.fst).count 1 = 1) :=
  ⟨(claim_C8_one_proof_per_tx Coins.new c8ma c8block 1 (by decide) (by decide)).1,
    by decide⟩

/-! ### Claim C9: the modified flag of `process_unconfirmed_transaction` -/

theorem rc_state_of_absent (s : Coins) (p : OutPoint)
    (h : mlookup p s.confirmed = none) : (s.remove_confirmed p).1 = s := by
  unfold Coins.remove_confirmed
  dsimp only
  rw [if_neg (fun hc => by rw [h] at hc; exact Bool.noConfusion hc.1)]
  dsimp only
  rw [merase_of_mlookup_none p s.confirmed h]

theorem scanOutputsUnconf_true (la : Nat → Nat → Nat → List (Nat × Script)) (txid : Txid) :
    ∀ (outs : List (Nat × TxOut)) (scripts : List (Script × KeyDerivation)) (s : Coins),
    (scanOutputsUnconf la txid outs scripts s true).2.2 = true := by
  intro outs
  induction outs with
  | nil => intro scripts s; rfl
  | cons vo rest ih =>
    intro scripts s
    rcases vo with ⟨vout, output⟩
    unfold scanOutputsUnconf
    cases hms : mlookup output.script_pubkey scripts with
    | some d => exact ih _ _
    | none => exact ih _ _

theorem scanOutputsUnconf_false (la : Nat → Nat → Nat → List (Nat × Script)) (txid : Txid) :
    ∀ (outs : List (Nat × TxOut)) (scripts : List (Script × KeyDerivation))
      (s : Coins) (m : Bool),
    (scanOutputsUnconf la txid outs scripts s m).2.2 = false →
    (scanOutputsUnconf la txid outs scripts s m).1 = s ∧ m = false := by
  intro outs
  induction outs with
  | nil => intro scripts s m h; exact ⟨rfl, h⟩
  | cons vo rest ih =>
    intro scripts s m h
    rcases vo with ⟨vout, output⟩
    unfold scanOutputsUnconf at h ⊢
    cases hms : mlookup output.script_pubkey scripts with
    | some d =>
      rw [hms] at h
      dsimp only at h
      rw [scanOutputsUnconf_true] at h
      exact Bool.noConfusion h
    | none =>
      rw [hms] at h
      dsimp only at h ⊢
      exact ⟨(ih _ _ _ h).1, (ih _ _ _ h).2⟩

theorem removeInputs_false : ∀ (inputs : List TxIn) (s : Coins) (m : Bool),
    (removeInputs inputs s m).2 = false → (removeInputs inputs s m).1 = s ∧ m = false := by
  intro inputs
  induction inputs with
  | nil => intro s m h; exact ⟨rfl, h⟩
  | cons i rest ih =>
    intro s m h
    unfold removeInputs at h ⊢
    obtain ⟨h1, h2⟩ := ih _ _ h
    rcases Bool.or_eq_false_iff.mp h2 with ⟨hm, hr⟩
    have habs : mlookup i.previous_output s.confirmed = none := by
      have := rc_modified s i.previous_output
      rw [hr] at this
      exact eq_none_of_isSome_false this.symm
    rw [h1, rc_state_of_absent s i.previous_output habs, hm]
    exact ⟨rfl, rfl⟩

theorem removeInputs_true : ∀ (inputs : List TxIn) (s : Coins),
    (removeInputs inputs s true).2 = true := by
  intro inputs
  induction inputs with
  | nil => intro s; rfl
  | cons i rest ih =>
    intro s
    unfold removeInputs
    dsimp only
    rw [Bool.true_or]
    exact ih _

theorem removeInputs_spend_true : ∀ (inputs : List TxIn) (s : Coins) (m : Bool),
    (∃ i ∈ inputs, (mlookup i.previous_output s.confirmed).isSome) →
    (removeInputs inputs s m).2 = true := by
  intro inputs
  induction inputs with
  | nil =>
    rintro s m ⟨i, hi, _⟩
    exact absurd hi (List.not_mem_nil i)
  | cons i rest ih =>
    rintro s m ⟨j, hj, hjl⟩
    unfold removeInputs
    dsimp only
    cases hcur : (mlookup i.previous_output s.confirmed).isSome with
    | true =>
      rw [rc_modified, hcur, Bool.or_true]
      exact removeInputs_true rest _
    | false =>
      rcases List.mem_cons.mp hj with hji | hjr
      · rw [hji] at hjl
        rw [hjl] at hcur
        exact Bool.noConfusion hcur
      · apply ih
        refine ⟨j, hjr, ?_⟩
        rw [rc_confirmed, mlookup_merase]
        by_cases hpp : j.previous_output = i.previous_output
        · rw [hpp] at hjl
          rw [hjl] at hcur
          exact Bool.noConfusion hcur
        · rw [if_neg hpp]
          exact hjl

/-- C9 (amended): the boolean returned by `process_unconfirmed_transaction`
reports "something was removed or matched": whenever the call returns false the
ledger state is unchanged (so a changed ledger always returns true), and
removing a spent confirmed coin alone makes the call return true.  The converse
of the first part fails: re-processing a transaction whose matched outputs are
already recorded identically in unconfirmed returns true although the ledger
state is unchanged (see the counterexample). -/
theorem claim_C9_modified_flag (s : Coins) (ma : MasterAccount) (tx : Transaction) :
    ((s.process_unconfirmed_transaction ma tx).2 = false →
      (s.process_unconfirmed_transaction ma tx).1 = s) ∧
    (∀ i ∈ tx.input, (mlookup i.previous_output s.confirmed).isSome →
      (s.process_unconfirmed_transaction ma tx).2 = true) := by
  constructor
  · intro h
    unfold Coins.process_unconfirmed_transaction at h ⊢
    dsimp only at h ⊢
    obtain ⟨hscan, hm⟩ := scanOutputsUnconf_false ma.lookAhead tx.txid _ _ _ _ h
    obtain ⟨hrem, _⟩ := removeInputs_false tx.input s false hm
    rw [hscan, hrem]
  · intro i hi hil
    unfold Coins.process_unconfirmed_transaction
    dsimp only
    have hrem : (removeInputs tx.input s false).2 = true :=
      removeInputs_spend_true tx.input s false ⟨i, hi, hil⟩
    rw [hrem]
    exact scanOutputsUnconf_true ma.lookAhead tx.txid _ _ _

/-- Derivation watching script 7 for the C9 scenarios. -/
def c9deriv : KeyDerivation := ⟨0, 0, 0, none, none⟩

/-- Collaborator for the C9 scenarios. -/
def c9ma : MasterAccount := ⟨[(7, c9deriv)], fun _ _ _ => []⟩

/-- Transaction 1 paying 5000 to the watched script 7, no inputs. -/
def c9tx : Transaction := ⟨1, [], [⟨5000, 7⟩]⟩

/-- State that already records transaction 1's output as unconfirmed. -/
def c9state : Coins := ⟨[(⟨1, 0⟩, ⟨⟨5000, 7⟩, c9deriv⟩)], [], []⟩

/-- C9 counterexample: re-processing transaction 1 on `c9state` returns true
although the ledger state (all three maps) is unchanged, refuting the claimed
"iff the state differs". -/
theorem claim_C9_counterexample :
    (c9state.process_unconfirmed_transaction c9ma c9tx).2 = true ∧
    (c9state.process_unconfirmed_transaction c9ma c9tx).1 = c9state := by decide

/-- State with a confirmed coin of transaction 2 for the C9 witness. -/
def c9wState : Coins :=
  ⟨[], [(⟨2, 0⟩, ⟨⟨4000, 9⟩, c9deriv⟩)], [(2, ⟨⟨2, [], []⟩, 70⟩)]⟩

/-- Transaction 3 spending the confirmed coin (2, 0), no outputs. -/
def c9wTx : Transaction := ⟨3, [⟨⟨2, 0⟩⟩], []⟩

/-- C9 witness: spending a confirmed coin alone makes the call return true. -/
theorem claim_C9_witness :
    (c9wState.process_unconfirmed_transaction c9ma c9wTx).2 = true :=
  (claim_C9_modified_flag c9wState c9ma c9wTx).2 ⟨⟨2, 0⟩⟩ (by decide) (by decide)


/-! ### Claim C6: fatal consistency failure in selection -/

theorem filterConfirmed_none_iff (proofs : List (Txid × ProvedTransaction))
    (bh : BlockHash → Option Nat) (height : Nat) :
    ∀ confirmed : List (OutPoint × Coin),
    filterConfirmed proofs bh height confirmed = none ↔
    ∃ pc ∈ confirmed, mlookup (pc : OutPoint × Coin).1.txid proofs = none ∨
      ∃ pr, mlookup pc.1.txid proofs = some pr ∧ bh pr.block_hash = none := by
  intro confirmed
  induction confirmed with
  | nil => simp [filterConfirmed]
  | cons qc rest ih =>
    rcases qc with ⟨q, c⟩
    unfold filterConfirmed
    cases hpr : mlookup q.txid proofs with
    | none =>
      dsimp only
      exact iff_of_true rfl ⟨(q, c), List.mem_cons_self _ _, Or.inl hpr⟩
    | some pr =>
      dsimp only
      cases hbh : bh pr.block_hash with
      | none =>
        dsimp only
        exact iff_of_true rfl ⟨(q, c), List.mem_cons_self _ _, Or.inr ⟨pr, hpr, hbh⟩⟩
      | some hg =>
        dsimp only
        cases hrest : filterConfirmed proofs bh height rest with
        | none =>
          dsimp only
          obtain ⟨pc, hpc, hbad⟩ := ih.mp hrest
          exact iff_of_true rfl ⟨pc, List.mem_cons_of_mem _ hpc, hbad⟩
        | some out =>
          dsimp only
          have hns : ¬ ∃ pc ∈ (q, c) :: rest,
              mlookup (pc : OutPoint × Coin).1.txid proofs = none ∨
              ∃ pr', mlookup pc.1.txid proofs = some pr' ∧ bh pr'.block_hash = none := by
            rintro ⟨pc, hpc, hbad⟩
            rcases List.mem_cons.mp hpc with h1 | h1
            · subst h1
              rcases hbad with h2 | ⟨pr', hpr', hbh'⟩
              · rw [hpr] at h2
                exact Option.noConfusion h2
              · rw [hpr] at hpr'
                obtain rfl : pr = pr' := Option.some.inj hpr'
                rw [hbh] at hbh'
                exact Option.noConfusion hbh'
            · have hrn : filterConfirmed proofs bh height rest = none :=
                ih.mpr ⟨pc, h1, hbad⟩
              rw [hrest] at hrn
              exact Option.noConfusion hrn
          cases hcsv : c.derivation.csv with
          | some csv =>
            dsimp only
            by_cases hlt : (hg + csv) % 4294967296 < height
            · rw [if_pos hlt]
              exact iff_of_false (fun e => Option.noConfusion e) hns
            · rw [if_neg hlt]
              exact iff_of_false (fun e => Option.noConfusion e) hns
          | none =>
            dsimp only
            exact iff_of_false (fun e => Option.noConfusion e) hns

/-- C6: `get_confirmed_coins` aborts fatally (the embedded `none`, the
`expect` panics of coins.rs:170-171) iff some coin in the confirmed map has no
proofs entry under its transaction id or the caller-supplied block-height
lookup returns absence for some confirmed coin's proof block hash; under the
precondition that every confirmed coin's proof and height resolve, the failure
branch is unreachable and the query returns normally. -/
theorem claim_C6_fatal_consistency (s : Coins) (minimum height : Nat)
    (bh : BlockHash → Option Nat) :
    (s.get_confirmed_coins minimum height bh = none ↔
      ∃ pc ∈ s.confirmed, mlookup (pc : OutPoint × Coin).1.txid s.proofs = none ∨
        ∃ pr, mlookup pc.1.txid s.proofs = some pr ∧ bh pr.block_hash = none) ∧
    ((∀ pc ∈ s.confirmed, ∃ pr hg,
        mlookup (pc : OutPoint × Coin).1.txid s.proofs = some pr ∧
        bh pr.block_hash = some hg) →
      (s.get_confirmed_coins minimum height bh).isSome) := by
  have hmain : s.get_confirmed_coins minimum height bh = none ↔
      ∃ pc ∈ s.confirmed, mlookup (pc : OutPoint × Coin).1.txid s.proofs = none ∨
        ∃ pr, mlookup pc.1.txid s.proofs = some pr ∧ bh pr.block_hash = none := by
    unfold Coins.get_confirmed_coins
    rw [Option.map_eq_none']
    exact filterConfirmed_none_iff s.proofs bh height s.confirmed
  refine ⟨hmain, ?_⟩
  intro hres
  cases hg : s.get_confirmed_coins minimum height bh with
  | some out => rfl
  | none =>
    exfalso
    obtain ⟨pc, hpc, hbad⟩ := hmain.mp hg
    obtain ⟨pr, hgt, hpr, hbh⟩ := hres pc hpc
    rcases hbad with h1 | ⟨pr', hpr', hbh'⟩
    · rw [hpr] at h1
      exact Option.noConfusion h1
    · rw [hpr] at hpr'
      obtain rfl : pr = pr' := Option.some.inj hpr'
      rw [hbh] at hbh'
      exact Option.noConfusion hbh'

/-- Coin of the C6 witness scenario. -/
def c6coin : Coin := ⟨⟨5000, 7⟩, ⟨0, 0, 0, none, none⟩⟩

/-- Proof binding transaction 1 to block hash 40 for the C6 witness. -/
def c6pr : ProvedTransaction := ⟨⟨1, [], [⟨5000, 7⟩]⟩, 40⟩

/-- Consistent one-coin state for the C6 witness. -/
def c6state : Coins := ⟨[], [(⟨1, 0⟩, c6coin)], [(1, c6pr)]⟩

/-- Block-height lookup of the C6 witness: block hash 40 is at height 10. -/
def c6bh : BlockHash → Option Nat := fun b => if b = 40 then some 10 else none

/-- C6 witness: on the consistent state every proof and height resolve, so the
query returns normally. -/
theorem claim_C6_witness : (c6state.get_confirmed_coins 3000 50 c6bh).isSome :=
  (claim_C6_fatal_consistency c6state 3000 50 c6bh).2
    (fun pc hpc => by
      have hpc' : pc = ((⟨1, 0⟩ : OutPoint), c6coin) := by
        simpa [c6state] using hpc
      subst hpc'
      exact ⟨c6pr, 10, rfl, rfl⟩)

/-! ### Claim C1: timelock filtering of candidates -/

/-- Keep-condition of the candidate filter (coins.rs:172-176): a coin with a
CSV requirement stays a candidate unless `h + csv < height` (`u32` wrapping
addition); a coin without CSV always stays. -/
def timelockOk (height : Nat) (c : Coin) (hg : Nat) : Bool :=
  match c.derivation.csv with
  | some csv => ! decide ((hg + csv) % 4294967296 < height)
  | none => true

theorem filterConfirmed_mem_sound (proofs : List (Txid × ProvedTransaction))
    (bh : BlockHash → Option Nat) (height : Nat) :
    ∀ (confirmed : List (OutPoint × Coin)) (out : List Selected),
    filterConfirmed proofs bh height confirmed = some out →
    ∀ x ∈ out, ((x : Selected).1, x.2.1) ∈ confirmed ∧
      (∃ pr, mlookup x.1.txid proofs = some pr ∧ bh pr.block_hash = some x.2.2) ∧
      timelockOk height x.2.1 x.2.2 = true := by
  intro confirmed
  induction confirmed with
  | nil =>
    intro out hout x hx
    unfold filterConfirmed at hout
    obtain rfl : ([] : List Selected) = out := Option.some.inj hout
    exact absurd hx (List.not_mem_nil x)
  | cons qc rest ih =>
    rcases qc with ⟨q, c⟩
    intro out hout x hx
    unfold filterConfirmed at hout
    cases hpr : mlookup q.txid proofs with
    | none =>
      rw [hpr] at hout
      exact Option.noConfusion hout
    | some pr =>
      rw [hpr] at hout
      dsimp only at hout
      cases hbh : bh pr.block_hash with
      | none =>
        rw [hbh] at hout
        exact Option.noConfusion hout
      | some hg =>
        rw [hbh] at hout
        dsimp only at hout
        cases hrest : filterConfirmed proofs bh height rest with
        | none =>
          rw [hrest] at hout
          exact Option.noConfusion hout
        | some out' =>
          rw [hrest] at hout
          dsimp only at hout
          have hsub : ∀ y ∈ out', ((y : Selected).1, y.2.1) ∈ (q, c) :: rest ∧
              (∃ pr', mlookup y.1.txid proofs = some pr' ∧
                bh pr'.block_hash = some y.2.2) ∧
              timelockOk height y.2.1 y.2.2 = true := by
            intro y hy
            obtain ⟨hm, hrs, hok⟩ := ih out' hrest y hy
            exact ⟨List.mem_cons_of_mem _ hm, hrs, hok⟩
          cases hcsv : c.derivation.csv with
          | some csv =>
            rw [hcsv] at hout
            dsimp only at hout
            by_cases hlt : (hg + csv) % 4294967296 < height
            · rw [if_pos hlt] at hout
              obtain rfl : out' = out := Option.some.inj hout
              exact hsub x hx
            · rw [if_neg hlt] at hout
              obtain rfl : (q, c, hg) :: out' = out := Option.some.inj hout
              rcases List.mem_cons.mp hx with h1 | h1
              · subst h1
                refine ⟨List.mem_cons_self _ _, ⟨pr, hpr, hbh⟩, ?_⟩
                unfold timelockOk
                rw [hcsv]
                simp [hlt]
              · exact hsub x h1
          | none =>
            rw [hcsv] at hout
            dsimp only at hout
            obtain rfl : (q, c, hg) :: out' = out := Option.some.inj hout
            rcases List.mem_cons.mp hx with h1 | h1
            · subst h1
              refine ⟨List.mem_cons_self _ _, ⟨pr, hpr, hbh⟩, ?_⟩
              unfold timelockOk
              rw [hcsv]
            · exact hsub x h1

theorem filterConfirmed_mem_complete (proofs : List (Txid × ProvedTransaction))
    (bh : BlockHash → Option Nat) (height : Nat) :
    ∀ (confirmed : List (OutPoint × Coin)) (out : List Selected),
    filterConfirmed proofs bh height confirmed = some out →
    ∀ (p : OutPoint) (c : Coin) (pr : ProvedTransaction) (hg : Nat),
    (p, c) ∈ confirmed → mlookup p.txid proofs = some pr →
    bh pr.block_hash = some hg → timelockOk height c hg = true →
    (p, c, hg) ∈ out := by
  intro confirmed
  induction confirmed with
  | nil =>
    intro out _ p c pr hg hmem
    exact absurd hmem (List.not_mem_nil _)
  | cons qc rest ih =>
    rcases qc with ⟨q, cq⟩
    intro out hout p c pr hg hmem hpr hbh hok
    unfold filterConfirmed at hout
    cases hprq : mlookup q.txid proofs with
    | none =>
      rw [hprq] at hout
      exact Option.noConfusion hout
    | some prq =>
      rw [hprq] at hout
      dsimp only at hout
      cases hbhq : bh prq.block_hash with
      | none =>
        rw [hbhq] at hout
        exact Option.noConfusion hout
      | some hgq =>
        rw [hbhq] at hout
        dsimp only at hout
        cases hrest : filterConfirmed proofs bh height rest with
        | none =>
          rw [hrest] at hout
          exact Option.noConfusion hout
        | some out' =>
          rw [hrest] at hout
          dsimp only at hout
          rcases List.mem_cons.mp hmem with h1 | h1
          · have hq : q = p := (congrArg Prod.fst h1).symm
            have hc : cq = c := (congrArg Prod.snd h1).symm
            rw [← hq] at hpr
            rw [← hc] at hok
            rw [← hq, ← hc]
            rw [hpr] at hprq
            obtain rfl : pr = prq := Option.some.inj hprq
            rw [hbh] at hbhq
            obtain rfl : hg = hgq := Option.some.inj hbhq
            unfold timelockOk at hok
            cases hcsv : cq.derivation.csv with
            | some csv =>
              rw [hcsv] at hout hok
              dsimp only at hout hok
              have hnlt : ¬ (hg + csv) % 4294967296 < height := by
                intro hlt
                rw [decide_eq_true hlt] at hok
                exact Bool.noConfusion hok
              rw [if_neg hnlt] at hout
              obtain rfl : (q, cq, hg) :: out' = out := Option.some.inj hout
              exact List.mem_cons_self _ _
            | none =>
              rw [hcsv] at hout
              dsimp only at hout
              obtain rfl : (q, cq, hg) :: out' = out := Option.some.inj hout
              exact List.mem_cons_self _ _
          · have hin : (p, c, hg) ∈ out' := ih out' hrest p c pr hg h1 hpr hbh hok
            cases hcsv : cq.derivation.csv with
            | some csv =>
              rw [hcsv] at hout
              dsimp only at hout
              by_cases hlt : (hgq + csv) % 4294967296 < height
              · rw [if_pos hlt] at hout
                obtain rfl : out' = out := Option.some.inj hout
                exact hin
              · rw [if_neg hlt] at hout
                obtain rfl : (q, cq, hgq) :: out' = out := Option.some.inj hout
                exact List.mem_cons_of_mem _ hin
            | none =>
              rw [hcsv] at hout
              dsimp only at hout
              obtain rfl : (q, cq, hgq) :: out' = out := Option.some.inj hout
              exact List.mem_cons_of_mem _ hin

/-- C1 (amended): a confirmed coin whose derivation carries CSV requirement
`csv` and whose proof resolves to height `h` is excluded from the candidate
set of `get_confirmed_coins` iff `(h + csv) mod 2^32 < current_height` — for
heights without `u32` overflow, excluded iff `current_height > h + csv` and
kept iff `current_height ≤ h + csv` (in particular, a coin with csv = 10
confirmed at height 100 is excluded when the current height is at least 111
and is still a candidate at current height 110); a coin with no CSV
requirement always passes the filter.  The returned selection is the pipeline
applied to exactly this candidate set. -/
theorem claim_C1_timelock_filtering (s : Coins) (bh : BlockHash → Option Nat)
    (height minimum : Nat) (out : List Selected) (p : OutPoint) (c : Coin)
    (pr : ProvedTransaction) (hg : Nat)
    (hsome : filterConfirmed s.proofs bh height s.confirmed = some out)
    (hmem : (p, c) ∈ s.confirmed)
    (hpr : mlookup p.txid s.proofs = some pr)
    (hbh : bh pr.block_hash = some hg) :
    ((p, c, hg) ∈ out ↔ timelockOk height c hg = true) ∧
    s.get_confirmed_coins minimum height bh = some (selectionPipeline minimum out) := by
  constructor
  · constructor
    · intro hx
      exact (filterConfirmed_mem_sound s.proofs bh height s.confirmed out hsome
        (p, c, hg) hx).2.2
    · intro hok
      exact filterConfirmed_mem_complete s.proofs bh height s.confirmed out hsome
        p c pr hg hmem hpr hbh hok
  · unfold Coins.get_confirmed_coins
    rw [hsome]
    rfl

/-- Derivation with a CSV requirement of 10 blocks, watching script 7. -/
def c1deriv : KeyDerivation := ⟨0, 0, 0, none, some 10⟩

/-- Coin with the CSV-10 derivation. -/
def c1coin : Coin := ⟨⟨5000, 7⟩, c1deriv⟩

/-- State holding one confirmed CSV-10 coin of transaction 1, proved in the
block with hash 40. -/
def c1state : Coins := ⟨[], [(⟨1, 0⟩, c1coin)], [(1, ⟨⟨1, [], [⟨5000, 7⟩]⟩, 40⟩)]⟩

/-- Block-height lookup of the C1 scenario: block hash 40 is at height 100. -/
def c1bh : BlockHash → Option Nat := fun b => if b = 40 then some 100 else none

/-- C1 counterexample: the CSV-10 coin confirmed at height 100 is still a
candidate — and is in fact returned — at current height 110, where the claim
says it must already be excluded (`100 + 10 < 110` is false, so the filter
keeps it). -/
theorem claim_C1_counterexample :
    filterConfirmed c1state.proofs c1bh 110 c1state.confirmed
      = some [(⟨1, 0⟩, c1coin, 100)] ∧
    c1state.get_confirmed_coins 5000 110 c1bh = some [(⟨1, 0⟩, c1coin, 100)] := by
  decide

/-- C1 witness: the amended boundary at current height 110 — the coin is a
member of the candidate set and the keep-condition evaluates to true. -/
theorem claim_C1_witness :
    (((⟨1, 0⟩ : OutPoint), c1coin, 100) ∈ [((⟨1, 0⟩ : OutPoint), c1coin, 100)] ↔
      timelockOk 110 c1coin 100 = true) :=
  (claim_C1_timelock_filtering c1state c1bh 110 5000 [(⟨1, 0⟩, c1coin, 100)]
    ⟨1, 0⟩ c1coin ⟨⟨1, [], [⟨5000, 7⟩]⟩, 40⟩ 100
    (by decide) (by decide) (by decide) (by decide)).1

/-! ### Claims C5 and C10: the selection pipeline -/

/-- Sum of the output values of a selection, in unbounded arithmetic. -/
def valsum (l : List Selected) : Nat := (l.map valueOf).sum

theorem valsum_cons (i : Selected) (l : List Selected) :
    valsum (i :: l) = valueOf i + valsum l := by
  simp [valsum]

theorem valsum_perm {l1 l2 : List Selected} (h : l1.Perm l2) : valsum l1 = valsum l2 :=
  (h.map valueOf).sum_eq

theorem selectAccum_sum_le (minimum : Nat) :
    ∀ (l : List Selected) (a : Nat),
    (selectAccum minimum l a).2 ≤ a + valsum (selectAccum minimum l a).1 := by
  intro l
  induction l with
  | nil => intro a; simp [selectAccum, valsum]
  | cons i rest ih =>
    intro a
    unfold selectAccum
    dsimp only
    by_cases hb : minimum ≤ (a + valueOf i) % 18446744073709551616
    · rw [if_pos hb]
      dsimp only
      rw [valsum_cons]
      have h2 : (a + valueOf i) % 18446744073709551616 ≤ a + valueOf i := Nat.mod_le _ _
      have h3 : valsum ([] : List Selected) = 0 := rfl
      omega
    · rw [if_neg hb]
      dsimp only
      have h1 := ih ((a + valueOf i) % 18446744073709551616)
      have h2 : (a + valueOf i) % 18446744073709551616 ≤ a + valueOf i := Nat.mod_le _ _
      rw [valsum_cons]
      omega

theorem selectAccum_reach_or_all (minimum : Nat) :
    ∀ (l : List Selected) (a : Nat),
    minimum ≤ (selectAccum minimum l a).2 ∨ (selectAccum minimum l a).1 = l := by
  intro l
  induction l with
  | nil => intro a; right; rfl
  | cons i rest ih =>
    intro a
    unfold selectAccum
    dsimp only
    by_cases hb : minimum ≤ (a + valueOf i) % 18446744073709551616
    · rw [if_pos hb]
      left
      exact hb
    · rw [if_neg hb]
      dsimp only
      rcases ih ((a + valueOf i) % 18446744073709551616) with h | h
      · left
        exact h
      · right
        rw [h]

theorem selectAccum_under (minimum : Nat) :
    ∀ (l : List Selected) (a : Nat), a + valsum l < minimum →
    (selectAccum minimum l a).1 = l ∧ (selectAccum minimum l a).2 < minimum := by
  intro l
  induction l with
  | nil =>
    intro a h
    have hv : valsum ([] : List Selected) = 0 := rfl
    refine ⟨rfl, ?_⟩
    show a < minimum
    omega
  | cons i rest ih =>
    intro a h
    rw [valsum_cons] at h
    have h2 : (a + valueOf i) % 18446744073709551616 ≤ a + valueOf i := Nat.mod_le _ _
    have hb : ¬ minimum ≤ (a + valueOf i) % 18446744073709551616 := by omega
    unfold selectAccum
    dsimp only
    rw [if_neg hb]
    dsimp only
    have hih := ih ((a + valueOf i) % 18446744073709551616) (by omega)
    exact ⟨by rw [hih.1], hih.2⟩

theorem removeFirstLE_spec (change : Nat) :
    ∀ (l : List Selected) (v : Nat) (l' : List Selected),
    removeFirstLE change l = some (v, l') →
    v ≤ change ∧ valsum l = v + valsum l' := by
  intro l
  induction l with
  | nil => intro v l' h; exact Option.noConfusion h
  | cons i rest ih =>
    intro v l' h
    unfold removeFirstLE at h
    by_cases hc : valueOf i ≤ change
    · rw [if_pos hc] at h
      have he := Option.some.inj h
      have hv : valueOf i = v := congrArg Prod.fst he
      have hl : rest = l' := congrArg Prod.snd he
      subst hv
      subst hl
      exact ⟨hc, valsum_cons i rest⟩
    · rw [if_neg hc] at h
      cases hr : removeFirstLE change rest with
      | none =>
        rw [hr] at h
        exact Option.noConfusion h
      | some vl =>
        rw [hr] at h
        dsimp only [Option.map] at h
        have he := Option.some.inj h
        have hv : vl.1 = v := congrArg Prod.fst he
        have hl : i :: vl.2 = l' := congrArg Prod.snd he
        obtain ⟨hvc, hsum⟩ := ih vl.1 vl.2 (by rw [hr])
        subst hv
        subst hl
        rw [valsum_cons, valsum_cons]
        exact ⟨hvc, by omega⟩

theorem dropFuel_nil (fuel change : Nat) : dropFuel fuel change [] = [] := by
  cases fuel with
  | zero => rfl
  | succ f => rfl

theorem dropFuel_sum (fuel : Nat) :
    ∀ (change : Nat) (l : List Selected),
    valsum l ≤ valsum (dropFuel fuel change l) + change := by
  induction fuel with
  | zero => intro change l; exact Nat.le_add_right _ _
  | succ f ih =>
    intro change l
    unfold dropFuel
    cases hr : removeFirstLE change l with
    | none => exact Nat.le_add_right _ _
    | some vl =>
      obtain ⟨v, l'⟩ := vl
      dsimp only
      obtain ⟨hv, hsum⟩ := removeFirstLE_spec change l v l' hr
      have hih := ih (change - v) l'
      omega

/-- C5: for every ledger state whose candidate resolution succeeds and every
requested minimum, if the minimum is at most the total value of the eligible
candidates then the returned selection's values sum to at least the minimum;
if the minimum exceeds that total, the entire eligible set is returned (as a
permutation — the final shuffle only reorders) and its sum is strictly below
the minimum. -/
theorem claim_C5_selection_meets_minimum (s : Coins) (minimum height : Nat)
    (bh : BlockHash → Option Nat) (cands : List Selected)
    (hsome : filterConfirmed s.proofs bh height s.confirmed = some cands) :
    s.get_confirmed_coins minimum height bh = some (selectionPipeline minimum cands) ∧
    (minimum ≤ valsum cands → minimum ≤ valsum (selectionPipeline minimum cands)) ∧
    (valsum cands < minimum → (selectionPipeline minimum cands).Perm cands ∧
      valsum (selectionPipeline minimum cands) < minimum) := by
  have hperm : (List.insertionSort (fun a b => valueOf a ≤ valueOf b) cands).Perm cands :=
    List.perm_insertionSort _ _
  have hvs : valsum (List.insertionSort (fun a b => valueOf a ≤ valueOf b) cands) =
      valsum cands := valsum_perm hperm
  refine ⟨?_, ?_, ?_⟩
  · unfold Coins.get_confirmed_coins
    rw [hsome]
    rfl
  · intro hmin
    unfold selectionPipeline
    dsimp only
    by_cases hdrop : minimum <
        (selectAccum minimum (List.insertionSort (fun a b => valueOf a ≤ valueOf b) cands) 0).2
    · rw [if_pos hdrop]
      have h1 := dropFuel_sum
        (selectAccum minimum
          (List.insertionSort (fun a b => valueOf a ≤ valueOf b) cands) 0).1.length
        ((selectAccum minimum
          (List.insertionSort (fun a b => valueOf a ≤ valueOf b) cands) 0).2 - minimum)
        (selectAccum minimum
          (List.insertionSort (fun a b => valueOf a ≤ valueOf b) cands) 0).1
      have h2 := selectAccum_sum_le minimum
        (List.insertionSort (fun a b => valueOf a ≤ valueOf b) cands) 0
      omega
    · rw [if_neg hdrop]
      rcases selectAccum_reach_or_all minimum
        (List.insertionSort (fun a b => valueOf a ≤ valueOf b) cands) 0 with hreach | hall
      · have h2 := selectAccum_sum_le minimum
          (List.insertionSort (fun a b => valueOf a ≤ valueOf b) cands) 0
        omega
      · rw [hall, hvs]
        exact hmin
  · intro hlt
    have hu := selectAccum_under minimum
      (List.insertionSort (fun a b => valueOf a ≤ valueOf b) cands) 0 (by omega)
    unfold selectionPipeline
    dsimp only
    rw [if_neg (by omega : ¬ minimum <
      (selectAccum minimum (List.insertionSort (fun a b => valueOf a ≤ valueOf b) cands) 0).2)]
    rw [hu.1]
    exact ⟨hperm, by omega⟩

/-- Coin of the C5 witness scenario. -/
def c5coin : Coin := ⟨⟨5000, 7⟩, ⟨0, 0, 0, none, none⟩⟩

/-- Consistent one-coin state for the C5 witness. -/
def c5state : Coins := ⟨[], [(⟨1, 0⟩, c5coin)], [(1, ⟨⟨1, [], [⟨5000, 7⟩]⟩, 40⟩)]⟩

/-- Block-height lookup of the C5 witness. -/
def c5bh : BlockHash → Option Nat := fun b => if b = 40 then some 10 else none

/-- C5 witness: requesting 3000 out of an eligible total of 5000 returns a
selection summing to at least 3000. -/
theorem claim_C5_witness :
    3000 ≤ valsum (selectionPipeline 3000 [(⟨1, 0⟩, c5coin, 10)]) :=
  (claim_C5_selection_meets_minimum c5state 3000 50 c5bh [(⟨1, 0⟩, c5coin, 10)]
    (by decide)).2.1 (by decide)

theorem selectionPipeline_zero_of_pos (cands : List Selected) (hne : cands ≠ [])
    (hbound : ∀ it ∈ cands, 0 < valueOf it ∧ valueOf it < 18446744073709551616) :
    selectionPipeline 0 cands = [] := by
  have hperm := List.perm_insertionSort (fun a b => valueOf a ≤ valueOf b) cands
  unfold selectionPipeline
  dsimp only
  cases hs : List.insertionSort (fun a b => valueOf a ≤ valueOf b) cands with
  | nil =>
    exfalso
    rw [hs] at hperm
    exact hne hperm.symm.eq_nil
  | cons i rest =>
    have hi : i ∈ cands := hperm.mem_iff.mp (by rw [hs]; exact List.mem_cons_self _ _)
    obtain ⟨hpos, hlt⟩ := hbound i hi
    have hsum : (0 + valueOf i) % 18446744073709551616 = valueOf i := by
      rw [Nat.zero_add]
      exact Nat.mod_eq_of_lt hlt
    have hacc : selectAccum 0 (i :: rest) 0 = ([i], valueOf i) := by
      unfold selectAccum
      dsimp only
      rw [if_pos (Nat.zero_le _), hsum]
    rw [hacc]
    dsimp only
    rw [if_pos hpos, Nat.sub_zero]
    have hrem : removeFirstLE (valueOf i) [i] = some (valueOf i, []) := by
      unfold removeFirstLE
      rw [if_pos (Nat.le_refl _)]
    show dropFuel (0 + 1) (valueOf i) [i] = []
    unfold dropFuel
    rw [hrem]
    dsimp only
    rfl

/-- C10: if the eligible candidate set is non-empty and every eligible coin
has a strictly positive `u64` output value, then `get_confirmed_coins` with
minimum 0 returns the empty list — the single selected smallest coin's value
is at most the overshoot, so the change-minimization pass drops it. -/
theorem claim_C10_zero_minimum (s : Coins) (height : Nat)
    (bh : BlockHash → Option Nat) (cands : List Selected)
    (hsome : filterConfirmed s.proofs bh height s.confirmed = some cands)
    (hne : cands ≠ [])
    (hbound : ∀ it ∈ cands, 0 < valueOf it ∧ valueOf it < 18446744073709551616) :
    s.get_confirmed_coins 0 height bh = some [] := by
  unfold Coins.get_confirmed_coins
  rw [hsome, Option.map_some', selectionPipeline_zero_of_pos cands hne hbound]

/-- Coin of the C10 witness scenario. -/
def c10coin : Coin := ⟨⟨5000, 7⟩, ⟨0, 0, 0, none, none⟩⟩

/-- Consistent one-coin state for the C10 witness. -/
def c10state : Coins := ⟨[], [(⟨1, 0⟩, c10coin)], [(1, ⟨⟨1, [], [⟨5000, 7⟩]⟩, 40⟩)]⟩

/-- Block-height lookup of the C10 witness. -/
def c10bh : BlockHash → Option Nat := fun b => if b = 40 then some 10 else none

/-- C10 witness: a zero-minimum request on a non-empty all-positive eligible
set returns the empty selection. -/
theorem claim_C10_witness : c10state.get_confirmed_coins 0 50 c10bh = some [] :=
  claim_C10_zero_minimum c10state 50 c10bh [(⟨1, 0⟩, c10coin, 10)]
    (by decide) (by decide) (by decide)
